import Mathlib

/-!
# The file tree of `initramfs` (`internal/files/entry.go`)

A shallow embedding of the `Entry` type and of its methods, followed by the
properties of the in-memory file tree.

Conventions of the embedding:

* A Go `*Entry` is modelled by the `Entry` value it points to; a `nil` result is
  `none`.  A method that may assign to its receiver returns the receiver as it is
  after the call, next to the values the Go method returns.
* A Go `map[string]*Entry` is an optional association list: `none` is the `nil`
  map, `some l` an allocated map holding the bindings of `l`.  The order of `l`
  stands for the order in which `range` yields the bindings, which Go leaves
  unspecified; statements about `walk` quantify over all entries and so over
  every such order.  Keys of a Go map are unique, which is the predicate
  `Entry.wf`.
* `filepath.Join` belongs to the Go standard library and is a parameter `join`.
* A callback (`WalkFunc`) is a Go closure: it is a function that threads the
  state `σ` it closes over and may return an error of type `ε`.
* Where the identity of entries matters (one entry stored in two places, an entry
  stored below itself), the methods are embedded a second time on entries behind
  pointers: a `Heap` of `Node`s whose children maps hold addresses.
* The builder (`Archive`), the path resolution of the tree and `writeTo` are not
  among the sources; their definitions are modelled from the spec and say so.
-/

namespace Files

/-- Modelled from the spec: the declaration of `Type` is not among the sources.
It is an integer type (the tests build `files.Type(99)`). -/
structure FileType where
  val : Int
deriving DecidableEq, Repr

/-- Modelled from the spec: constant `TypeRegular` of the type enumeration
"one of {Regular, Directory, Link}"; it is the zero value in the tests. -/
def TypeRegular : FileType := ⟨0⟩

/-- Modelled from the spec: constant `TypeDirectory` of the type enumeration. -/
def TypeDirectory : FileType := ⟨1⟩

/-- Modelled from the spec: constant `TypeLink` of the type enumeration. -/
def TypeLink : FileType := ⟨2⟩

/-- Modelled from the spec: the typed errors `EntryNotDir`, `EntryExists` and
`EntryNotExists` returned by the tree operations; their declarations are not
among the sources. -/
inductive Error where
  | ErrEntryNotDir
  | ErrEntryExists
  | ErrEntryNotExists
deriving DecidableEq, Repr

export Error (ErrEntryNotDir ErrEntryExists ErrEntryNotExists)

/-- Entry is a single file tree entry: `Type`, `RelatedPath` and the unexported
`children` map. -/
inductive Entry where
  | mk (type : FileType) (relatedPath : String)
      (children : Option (List (String × Entry)))

/-- The bindings of a `map[string]*Entry`. -/
abbrev Bindings := List (String × Entry)

/-- The map index expression `m[name]` on the bindings of a map: the value bound
to `name`, when there is one. -/
def Bindings.get (l : Bindings) (name : String) : Option Entry :=
  List.lookup name l

/-- The map assignment `m[name] = entry` on the bindings of a map: an existing
binding of `name` is replaced, otherwise a binding is added. -/
def Bindings.set : Bindings → String → Entry → Bindings
  | [], name, entry => [(name, entry)]
  | (k, v) :: rest, name, entry =>
    if k = name then (k, entry) :: rest else (k, v) :: Bindings.set rest name entry

/-- The values a method returns with the state of its receiver after the call. -/
structure Result where
  /-- The receiver after the call. -/
  receiver : Entry
  /-- The returned `*Entry`; `none` is `nil`. -/
  entry : Option Entry
  /-- The returned `error`; `none` is `nil`. -/
  err : Option Error

/-- The callback type of `walk`: a Go closure called with the path and the entry.
It threads the state `σ` it closes over and may return an error. -/
abbrev WalkFunc (σ ε : Type) := String → Entry → σ → σ × Option ε

namespace Entry

/-- Field `Type`. -/
def type : Entry → FileType
  | mk t _ _ => t

/-- Field `RelatedPath`. -/
def relatedPath : Entry → String
  | mk _ p _ => p

/-- Field `children`. -/
def children : Entry → Option Bindings
  | mk _ _ c => c

/-- IsDir returns true if the entry is a directory. -/
def IsDir (e : Entry) : Bool :=
  e.type = TypeDirectory

/-- IsLink returns true if the entry is a link. -/
def IsLink (e : Entry) : Bool :=
  e.type = TypeLink

/-- IsRegular returns true if the entry is a regular file. -/
def IsRegular (e : Entry) : Bool :=
  e.type = TypeRegular

/-- The index expression `e.children[name]`; on a `nil` map nothing is found. -/
def child (e : Entry) (name : String) : Option Entry :=
  match e.children with
  | none => none
  | some l => l.get name

/-- AddEntry adds an arbitrary entry as children. -/
def AddEntry (e : Entry) (name : String) (entry : Entry) : Result :=
  if !e.IsDir then
    ⟨e, none, some ErrEntryNotDir⟩
  else
    match e.child name with
    | some ee => ⟨e, some ee, some ErrEntryExists⟩
    | none =>
      let m : Bindings :=
        match e.children with
        | none => []
        | some l => l
      ⟨mk e.type e.relatedPath (some (m.set name entry)), some entry, none⟩

/-- AddFile adds a new regular file entry to the children. -/
def AddFile (e : Entry) (name relatedPath : String) : Result :=
  e.AddEntry name (mk TypeRegular relatedPath none)

/-- AddDirectory adds a new directory entry to the children. -/
def AddDirectory (e : Entry) (name : String) : Result :=
  e.AddEntry name (mk TypeDirectory "" none)

/-- AddLink adds a new link entry to the children. -/
def AddLink (e : Entry) (name relatedPath : String) : Result :=
  e.AddEntry name (mk TypeLink relatedPath none)

/-- GetEntry gets the entry for the given name; it does not assign to its
receiver, so only the returned pair is modelled. -/
def GetEntry (e : Entry) (name : String) : Option Entry × Option Error :=
  if !e.IsDir then
    (none, some ErrEntryNotDir)
  else
    match e.child name with
    | none => (none, some ErrEntryNotExists)
    | some entry => (some entry, none)

mutual
/-- The method `walk`: ranges over the children and calls `fn` on each of them,
descending into the directories among them; it stops at the first error. -/
def walk {σ ε : Type} (join : String → String → String) (fn : WalkFunc σ ε) :
    Entry → String → σ → σ × Option ε
  | mk _ _ none, _, s => (s, none)
  | mk _ _ (some l), base, s => walkRange join fn l base s
/-- The loop `for name, entry := range e.children` of `walk` over the bindings
that are still to come. -/
def walkRange {σ ε : Type} (join : String → String → String) (fn : WalkFunc σ ε) :
    Bindings → String → σ → σ × Option ε
  | [], _, s => (s, none)
  | (name, entry) :: rest, base, s =>
    let path := join base name
    match fn path entry s with
    | (s1, some err) => (s1, some err)
    | (s1, none) =>
      if entry.IsDir then
        match walk join fn entry path s1 with
        | (s2, some err) => (s2, some err)
        | (s2, none) => walkRange join fn rest base s2
      else
        walkRange join fn rest base s1
end

mutual
/-- Keys are unique in every children map of the tree, as they are in a Go map. -/
def wf : Entry → Bool
  | mk _ _ none => true
  | mk _ _ (some l) => decide ((l.map Prod.fst).Nodup) && wfRange l
/-- Every entry bound in the bindings has unique keys throughout. -/
def wfRange : Bindings → Bool
  | [] => true
  | (_, entry) :: rest => wf entry && wfRange rest
end

/-- The entry reached from `e` along a non-empty chain of child names on which
every entry before the last one is a Directory. -/
def reach (e : Entry) : List String → Option Entry
  | [] => none
  | [name] => e.child name
  | name :: next :: rest =>
    match e.child name with
    | none => none
    | some c => if c.IsDir then reach c (next :: rest) else none

mutual
/-- The entries `walk` calls the callback on, in the order of the calls, each with
the chain of child names that leads to it from the starting entry. -/
def visits : Entry → List (List String × Entry)
  | mk _ _ none => []
  | mk _ _ (some l) => visitsRange l
/-- The entries the loop of `walk` calls the callback on for the given bindings. -/
def visitsRange : Bindings → List (List String × Entry)
  | [] => []
  | (name, entry) :: rest =>
    ([name], entry) ::
      ((if entry.IsDir then (visits entry).map (fun v => (name :: v.1, v.2)) else []) ++
        visitsRange rest)
end

end Entry

/-- Calls `fn` on the given paths and entries one after the other and stops at the
first error. -/
def callEach {σ ε : Type} (fn : WalkFunc σ ε) : List (String × Entry) → σ → σ × Option ε
  | [], s => (s, none)
  | (path, entry) :: rest, s =>
    match fn path entry s with
    | (s1, some err) => (s1, some err)
    | (s1, none) => callEach fn rest s1

/-- The path of the entry at the end of a chain of child names below `base`:
`base` joined with the names one after the other. -/
def pathOf (join : String → String → String) (base : String) (chain : List String) :
    String :=
  chain.foldl join base

/-- A sequence of chains of names is in depth-first order: the chains of the
sequence that extend one of its chains `c` are one block that comes right after
`c`. -/
def DepthFirst (cs : List (List String)) : Prop :=
  ∀ c ∈ cs, ∃ front block back, cs = front ++ c :: block ++ back ∧
    (∀ d ∈ block, c <+: d) ∧ (∀ d ∈ front ++ back, ¬ c <+: d)

/-- The directory of the tests: `Entry{Type: TypeDirectory}`, with a `nil` map. -/
def dirEntry : Entry := Entry.mk TypeDirectory "" none

/-- A regular file, as in the tests of `GetEntry`. -/
def sampleFile : Entry := Entry.mk TypeRegular "source" none

/-- A directory holding `sampleFile` under the name "file", as in the tests of
`GetEntry`. -/
def sampleDir : Entry := Entry.mk TypeDirectory "" (some [("file", sampleFile)])

/-- A link. -/
def sampleLink : Entry := Entry.mk TypeLink "target" none

/-- A tree with a nested directory, a link, and a regular file that was given a
child of its own. -/
def sampleTree : Entry :=
  Entry.mk TypeDirectory "" (some [
    ("bin", Entry.mk TypeDirectory "" (some [
      ("sh", Entry.mk TypeRegular "/bin/sh" none),
      ("sub", Entry.mk TypeDirectory "" (some [("x", Entry.mk TypeLink "/y" none)]))])),
    ("init", Entry.mk TypeRegular "first" (some [("hidden", sampleFile)])),
    ("lib", Entry.mk TypeLink "/usr/lib" none)])

/-- A join for examples: the two parts with a slash in between. -/
def slashJoin (base name : String) : String :=
  base ++ "/" ++ name

/-- A callback for examples that counts its calls and never fails. -/
def countCalls : WalkFunc Nat String :=
  fun _ _ count => (count + 1, none)

/-- A callback for examples that counts its calls and fails on links. -/
def failOnLink : WalkFunc Nat String :=
  fun path entry count => (count + 1, if entry.IsLink then some ("link " ++ path) else none)

/-- One call of a callback as an observer sees it: the arguments and the error
the call returned. -/
structure Invocation (ε : Type) where
  /-- The path argument. -/
  path : String
  /-- The entry argument. -/
  entry : Entry
  /-- The returned `error`; `none` is `nil`. -/
  err : Option ε

/-- The callback `fn` with a log to which every call is appended. -/
def record {σ ε : Type} (fn : WalkFunc σ ε) : WalkFunc (σ × List (Invocation ε)) ε :=
  fun path entry s =>
    (((fn path entry s.1).1, s.2 ++ [⟨path, entry, (fn path entry s.1).2⟩]),
      (fn path entry s.1).2)

/-- The calls `fn` receives from `walk`, in order. -/
def invocations {σ ε : Type} (join : String → String → String) (fn : WalkFunc σ ε)
    (e : Entry) (base : String) (s : σ) : List (Invocation ε) :=
  (e.walk join (record fn) base (s, [])).1.2

/-- One call of `AddFile`, `AddDirectory` or `AddLink`. -/
inductive Call where
  | addFile (name relatedPath : String)
  | addDirectory (name : String)
  | addLink (name relatedPath : String)

namespace Call

/-- The name the call inserts under. -/
def name : Call → String
  | addFile n _ => n
  | addDirectory n => n
  | addLink n _ => n

/-- The `Type` the call constructs its entry with. -/
def type : Call → FileType
  | addFile _ _ => TypeRegular
  | addDirectory _ => TypeDirectory
  | addLink _ _ => TypeLink

/-- The `RelatedPath` the call constructs its entry with. -/
def relatedPath : Call → String
  | addFile _ p => p
  | addDirectory _ => ""
  | addLink _ p => p

/-- The entry the call constructs: `&Entry{Type: ..., RelatedPath: ...}`. -/
def entry (c : Call) : Entry :=
  Entry.mk c.type c.relatedPath none

/-- The call made on the entry `e`. -/
def apply (c : Call) (e : Entry) : Result :=
  match c with
  | addFile n p => e.AddFile n p
  | addDirectory n => e.AddDirectory n
  | addLink n p => e.AddLink n p

end Call

/-- The results of a sequence of calls made one after the other on an entry. -/
def runCalls : Entry → List Call → List Result
  | _, [] => []
  | e, c :: cs => c.apply e :: runCalls (c.apply e).receiver cs

/-- The entry after a sequence of calls made one after the other on it. -/
def afterCalls : Entry → List Call → Entry
  | e, [] => e
  | e, c :: cs => afterCalls (c.apply e).receiver cs

/-- Modelled from the spec: path resolution of the tree (`tree.go` is not among
the sources), "walking child lookups from a given root, one segment at a time":
`Entry.GetEntry` is applied segment by segment, and the first lookup that fails
ends the resolution with its error. -/
def resolve (e : Entry) : List String → Option Entry × Option Error
  | [] => (some e, none)
  | seg :: rest =>
    match e.GetEntry seg with
    | (some c, none) => resolve c rest
    | (_, err) => (none, err)

/-- The interface `Writer` of `internal/archive/writer.go`; an implementation
threads its state `ω`. The file mode is its numeric value. -/
structure Writer (ω ε : Type) where
  /-- Method `WriteRegular(string, string, fs.FileMode) error`. -/
  WriteRegular : String → String → Nat → ω → ω × Option ε
  /-- Method `WriteDirectory(string) error`. -/
  WriteDirectory : String → ω → ω × Option ε
  /-- Method `WriteLink(string, string) error`. -/
  WriteLink : String → String → ω → ω × Option ε

/-- Modelled from the spec: the errors of serialization (section 7):
`UnknownFileType`, `SourceOpenFailure` and `WriterFailure`, the last two
wrapping their cause. -/
inductive WriteError (ε : Type) where
  | unknownFileType (value : Int)
  | sourceOpenFailure (path : String) (cause : ε)
  | writerFailure (cause : ε)

/-- Lifts the error of a writer operation to a serialization error. -/
def wrapWriter {ω ε : Type} (r : ω × Option ε) : ω × Option (WriteError ε) :=
  (r.1, r.2.map WriteError.writerFailure)

/-- Modelled from the spec: the callback of `writeTo` (the builder is not among
the sources), which "dispatches on `Type`" (section 4.2). `openSource` is the
source filesystem: the error of opening a path for reading, if any. -/
def writeEntry {ω ε : Type} (openSource : String → Option ε) (w : Writer ω ε) :
    WalkFunc ω (WriteError ε) :=
  fun path entry s =>
    if entry.type = TypeDirectory then
      wrapWriter (w.WriteDirectory path s)
    else if entry.type = TypeLink then
      wrapWriter (w.WriteLink path entry.relatedPath s)
    else if entry.type = TypeRegular then
      match openSource entry.relatedPath with
      | some cause => (s, some (WriteError.sourceOpenFailure entry.relatedPath cause))
      | none => wrapWriter (w.WriteRegular path entry.relatedPath 0o755 s)
    else
      (s, some (WriteError.unknownFileType entry.type.val))

/-- Modelled from the spec: `writeTo(writer)`, which "walks the entire tree from
the root" and calls the writer for every visited entry (section 4.2). -/
def writeTo {ω ε : Type} (join : String → String → String)
    (openSource : String → Option ε) (w : Writer ω ε) (root : Entry) (s : ω) :
    ω × Option (WriteError ε) :=
  root.walk join (writeEntry openSource w) "/" s

/-- One call of a writer operation as an observer sees it. -/
structure WriterCall (ε : Type) where
  /-- The archive path argument. -/
  path : String
  /-- The returned `error`; `none` is `nil`. -/
  err : Option ε

/-- The writer `w` with a log to which every call of an operation is appended. -/
def recordWriter {ω ε : Type} (w : Writer ω ε) : Writer (ω × List (WriterCall ε)) ε where
  WriteRegular := fun path src mode s =>
    (((w.WriteRegular path src mode s.1).1,
        s.2 ++ [⟨path, (w.WriteRegular path src mode s.1).2⟩]),
      (w.WriteRegular path src mode s.1).2)
  WriteDirectory := fun path s =>
    (((w.WriteDirectory path s.1).1, s.2 ++ [⟨path, (w.WriteDirectory path s.1).2⟩]),
      (w.WriteDirectory path s.1).2)
  WriteLink := fun path target s =>
    (((w.WriteLink path target s.1).1, s.2 ++ [⟨path, (w.WriteLink path target s.1).2⟩]),
      (w.WriteLink path target s.1).2)

/-- The calls of the writer's operations that `writeTo` makes, in order. -/
def writerCalls {ω ε : Type} (join : String → String → String)
    (openSource : String → Option ε) (w : Writer ω ε) (root : Entry) (s : ω) :
    List (WriterCall ε) :=
  (writeTo join openSource (recordWriter w) root (s, [])).1.2

/-- A writer in the manner of the mock writer of the tests: every operation
returns the error it was set up with. -/
def mockWriter (err : Option String) : Writer Unit String where
  WriteRegular := fun _ _ _ s => (s, err)
  WriteDirectory := fun _ s => (s, err)
  WriteLink := fun _ _ s => (s, err)

/-- The regular file of the tests: `Entry{Type: TypeRegular}`. -/
def fileEntry : Entry := Entry.mk TypeRegular "" none

/-- The link of the tests: `Entry{Type: TypeLink}`. -/
def linkEntry : Entry := Entry.mk TypeLink "" none

/-! ## Entries behind pointers

The methods of `entry.go` once more, with the pointers kept: an entry is an
allocated `Node`, a `*Entry` is its address, and the children map holds
addresses. This is the level at which one entry can be stored in two places. -/

/-- A non-nil `*Entry`: the address of an allocated entry. -/
abbrev Ptr := Nat

/-- The struct `Entry` in memory; its children map holds pointers. -/
structure Node where
  /-- Field `Type`. -/
  type : FileType
  /-- Field `RelatedPath`. -/
  relatedPath : String
  /-- Field `children`; `none` is the `nil` map. -/
  children : Option (List (String × Ptr))
deriving DecidableEq, Repr

/-- The memory: the entries allocated so far, each at the address that is its
index. -/
abbrev Heap := List Node

/-- The values a method on a `*Entry` returns with the memory after the call. -/
structure PtrResult where
  /-- The memory after the call. -/
  heap : Heap
  /-- The returned `*Entry`; `none` is `nil`. -/
  entry : Option Ptr
  /-- The returned `error`; `none` is `nil`. -/
  err : Option Error
deriving DecidableEq, Repr

namespace Heap

/-- The map index expression `m[name]` on the bindings of a map of pointers. -/
def mapGet (l : List (String × Ptr)) (name : String) : Option Ptr :=
  List.lookup name l

/-- The map assignment `m[name] = entry` on the bindings of a map of pointers. -/
def mapSet : List (String × Ptr) → String → Ptr → List (String × Ptr)
  | [], name, entry => [(name, entry)]
  | (k, v) :: rest, name, entry =>
    if k = name then (k, entry) :: rest else (k, v) :: mapSet rest name entry

/-- The composite literal `&Entry{Type: t, RelatedPath: p}`: a new entry with a
`nil` children map is allocated and its address returned. -/
def new (h : Heap) (t : FileType) (p : String) : Heap × Ptr :=
  (h ++ [⟨t, p, none⟩], h.length)

/-- The index expression `e.children[name]` of the entry at address `e`. -/
def child (node : Node) (name : String) : Option Ptr :=
  match node.children with
  | none => none
  | some l => mapGet l name

/-- AddEntry on pointers: `entry` itself is stored in the children map of the
entry at `e`. A receiver that is not allocated is outside the model (`none`). -/
def AddEntry (h : Heap) (e : Ptr) (name : String) (entry : Ptr) : Option PtrResult :=
  match h[e]? with
  | none => none
  | some node =>
    if node.type ≠ TypeDirectory then
      some ⟨h, none, some ErrEntryNotDir⟩
    else
      match child node name with
      | some ee => some ⟨h, some ee, some ErrEntryExists⟩
      | none =>
        let m : List (String × Ptr) :=
          match node.children with
          | none => []
          | some l => l
        some ⟨h.set e { node with children := some (mapSet m name entry) }, some entry, none⟩

/-- AddFile on pointers: the new entry is allocated, then passed to `AddEntry`. -/
def AddFile (h : Heap) (e : Ptr) (name relatedPath : String) : Option PtrResult :=
  match h[e]? with
  | none => none
  | some _ => AddEntry (new h TypeRegular relatedPath).1 e name (new h TypeRegular relatedPath).2

/-- AddDirectory on pointers. -/
def AddDirectory (h : Heap) (e : Ptr) (name : String) : Option PtrResult :=
  match h[e]? with
  | none => none
  | some _ => AddEntry (new h TypeDirectory "").1 e name (new h TypeDirectory "").2

/-- AddLink on pointers. -/
def AddLink (h : Heap) (e : Ptr) (name relatedPath : String) : Option PtrResult :=
  match h[e]? with
  | none => none
  | some _ => AddEntry (new h TypeLink relatedPath).1 e name (new h TypeLink relatedPath).2

/-- GetEntry on pointers; it does not write to memory. -/
def GetEntry (h : Heap) (e : Ptr) (name : String) : Option (Option Ptr × Option Error) :=
  match h[e]? with
  | none => none
  | some node =>
    if node.type ≠ TypeDirectory then
      some (none, some ErrEntryNotDir)
    else
      match child node name with
      | none => some (none, some ErrEntryNotExists)
      | some entry => some (some entry, none)

/-- The entry at `c` is stored in the children of the entry at `p` under `name`. -/
def Stored (h : Heap) (p : Ptr) (name : String) (c : Ptr) : Prop :=
  ∃ node l, h[p]? = some node ∧ node.children = some l ∧ (name, c) ∈ l

/-- The entry at `q` is a descendant of the entry at `p`. -/
inductive Descendant (h : Heap) : Ptr → Ptr → Prop where
  | direct {p c : Ptr} (name : String) : Stored h p name c → Descendant h p c
  | through {p c q : Ptr} (name : String) : Stored h p name c → Descendant h c q →
      Descendant h p q

/-- Every entry that owns a child is a Directory. -/
def OnlyDirsOwn (h : Heap) : Prop :=
  ∀ (p : Ptr) (node : Node) (l : List (String × Ptr)), h[p]? = some node →
    node.children = some l → l ≠ [] →
    node.type = TypeDirectory

end Heap

/-- One step of a caller of the package: a call of an insertion method on an
allocated entry, or the construction of an entry to pass to `AddEntry`. -/
inductive HeapOp where
  | addFile (e : Ptr) (name relatedPath : String)
  | addDirectory (e : Ptr) (name : String)
  | addLink (e : Ptr) (name relatedPath : String)
  | addEntry (e : Ptr) (name : String) (entry : Ptr)
  | newEntry (t : FileType) (relatedPath : String)

/-- The memory after one step; `none` when the receiver, or the entry passed to
`AddEntry`, is not allocated. -/
def HeapOp.apply (h : Heap) : HeapOp → Option Heap
  | addFile e name p => (Heap.AddFile h e name p).map PtrResult.heap
  | addDirectory e name => (Heap.AddDirectory h e name).map PtrResult.heap
  | addLink e name p => (Heap.AddLink h e name p).map PtrResult.heap
  | addEntry e name entry =>
    if entry < h.length then (Heap.AddEntry h e name entry).map PtrResult.heap else none
  | newEntry t p => some (Heap.new h t p).1

/-- The memory after a sequence of steps. -/
def runOps : Heap → List HeapOp → Option Heap
  | h, [] => some h
  | h, op :: rest =>
    match op.apply h with
    | none => none
    | some h1 => runOps h1 rest

/-- A fresh directory, `&Entry{Type: TypeDirectory}`, alone in memory at
address 0. -/
def freshDirectory : Heap := [⟨TypeDirectory, "", none⟩]

mutual
/-- Every entry of the tree that owns a child is a Directory. -/
def Entry.onlyDirsOwn : Entry → Bool
  | Entry.mk _ _ none => true
  | Entry.mk t _ (some l) =>
    (l.isEmpty || decide (t = TypeDirectory)) && Entry.onlyDirsOwnRange l
/-- Every entry bound in the bindings satisfies `onlyDirsOwn`. -/
def Entry.onlyDirsOwnRange : Bindings → Bool
  | [] => true
  | (_, entry) :: rest => Entry.onlyDirsOwn entry && Entry.onlyDirsOwnRange rest
end

/-- The keys of the children map of an entry. -/
def Entry.keys (e : Entry) : List String :=
  (e.children.getD []).map Prod.fst

/-- A name is a single path segment: it is not empty and holds no path
separator. -/
def isSegment (name : String) : Bool :=
  decide (name ≠ "") && !name.data.contains '/'

/-! ## The builder

The builder (`Archive`, earlier `InitRD`) and the path resolution of the tree are
not among the sources; they are modelled from the spec. -/

/-- Modelled from the spec: the splitting of a slash-separated path into its
segments (`tree.go` is not among the sources). Empty segments are dropped, so
that "/init" is the one segment "init". `cur` is the segment read so far. -/
def segmentsAux : List Char → List Char → List String
  | [], cur => if cur = [] then [] else [String.mk cur]
  | c :: rest, cur =>
    if c = '/' then
      if cur = [] then segmentsAux rest [] else String.mk cur :: segmentsAux rest []
    else
      segmentsAux rest (cur ++ [c])

/-- Modelled from the spec: the segments of a slash-separated path. -/
def pathSegments (path : String) : List String :=
  segmentsAux path.data []

/-- Modelled from the spec: `GetEntry(path)` of the tree (`tree.go` is not among
the sources): the path is split into segments and resolved from the root "one
segment at a time". -/
def GetEntryPath (root : Entry) (path : String) : Option Entry × Option Error :=
  resolve root (pathSegments path)

/-- Modelled from the spec: the builder state, "a single root File Tree whose root
is always a Directory" (the builder is not among the sources). The source
filesystem is the parameter `openSource` of `writeTo`. -/
structure Archive where
  /-- The root of the file tree. -/
  fileTree : Entry

/-- Modelled from the spec: `New(initPath)` "constructs the Builder with the root
directory containing a single Regular entry at `/init` whose `RelatedPath` is
`initPath`". -/
def New (initPath : String) : Archive :=
  ⟨((Entry.mk TypeDirectory "" none).AddFile "init" initPath).receiver⟩

/-- Modelled from the spec: the name of the "conventional staging directory". -/
def filesDir : String := "files"

/-- The entry `e` after its child `name` was written to through its pointer and
is now `c`. -/
def Entry.replaceChild (e : Entry) (name : String) (c : Entry) : Entry :=
  Entry.mk e.type e.relatedPath (some ((e.children.getD []).set name c))

/-- Modelled from the spec: the insertion key of the builder's `AddFile`: the
given name, or "if `name` is empty, the base name of `relatedPath`". -/
def insertionKey (base : String → String) (name relatedPath : String) : String :=
  if name = "" then base relatedPath else name

/-- Modelled from the spec: `AddFile(name, relatedPath)` of the builder "inserts a
Regular entry under a conventional staging directory"; "if `name` is empty, the
base name of `relatedPath` is used as the insertion key". The staging directory is
created when it is not there yet. `base` is `filepath.Base`. -/
def Archive.AddFile (base : String → String) (a : Archive) (name relatedPath : String) :
    Archive × Option Error :=
  let key := insertionKey base name relatedPath
  match a.fileTree.GetEntry filesDir with
  | (some dir, _) =>
    match (dir.AddFile key relatedPath).err with
    | some err => (a, some err)
    | none => (⟨a.fileTree.replaceChild filesDir (dir.AddFile key relatedPath).receiver⟩, none)
  | (none, some ErrEntryNotExists) =>
    (⟨(a.fileTree.AddDirectory filesDir).receiver.replaceChild filesDir
      ((Entry.mk TypeDirectory "" none).AddFile key relatedPath).receiver⟩, none)
  | (none, err) => (a, err)

/-- Modelled from the spec: `AddFiles(paths...)`, the "batch form of `AddFile`
using each path's base name as the insertion name"; it stops at the first
error. -/
def Archive.AddFiles (base : String → String) : Archive → List String → Archive × Option Error
  | a, [] => (a, none)
  | a, path :: rest =>
    match a.AddFile base "" path with
    | (a1, none) => Archive.AddFiles base a1 rest
    | (a1, some err) => (a1, some err)

/-- A base name function for examples: what follows the last slash. -/
def lastSegment (path : String) : String :=
  ((pathSegments path).getLast?).getD ""

/-- The entry stored under `key` in the staging directory of the builder, when
there is one. -/
def Archive.staged (a : Archive) (key : String) : Option Entry :=
  (a.fileTree.child filesDir).bind (fun dir => dir.child key)

/-- The root of the builder is a Directory, and so is what it holds under the
name of the staging directory, if anything. -/
def Archive.wellFormed (a : Archive) : Prop :=
  a.fileTree.IsDir = true ∧ ∀ x, a.fileTree.child filesDir = some x → x.IsDir = true

/-- One call of an operation of the writer, with its arguments. -/
inductive WriterOp where
  | regular (path source : String) (mode : Nat)
  | directory (path : String)
  | link (path target : String)
deriving DecidableEq, Repr

/-- The writer `w` with a log to which every call of an operation is appended
with its arguments. -/
def logWriter {ω ε : Type} (w : Writer ω ε) : Writer (ω × List WriterOp) ε where
  WriteRegular := fun path src mode s =>
    (((w.WriteRegular path src mode s.1).1, s.2 ++ [WriterOp.regular path src mode]),
      (w.WriteRegular path src mode s.1).2)
  WriteDirectory := fun path s =>
    (((w.WriteDirectory path s.1).1, s.2 ++ [WriterOp.directory path]),
      (w.WriteDirectory path s.1).2)
  WriteLink := fun path target s =>
    (((w.WriteLink path target s.1).1, s.2 ++ [WriterOp.link path target]),
      (w.WriteLink path target s.1).2)

/-- The operations of the writer that `writeTo` calls, in order. -/
def writerOps {ω ε : Type} (join : String → String → String)
    (openSource : String → Option ε) (w : Writer ω ε) (root : Entry) (s : ω) :
    List WriterOp :=
  (writeTo join openSource (logWriter w) root (s, [])).1.2

/-- The writer operation that matches the `Type` of an entry visited at `path`,
with its arguments taken from the entry; none for any other `Type`. -/
def opFor (path : String) (entry : Entry) : Option WriterOp :=
  if entry.type = TypeDirectory then some (WriterOp.directory path)
  else if entry.type = TypeLink then some (WriterOp.link path entry.relatedPath)
  else if entry.type = TypeRegular then some (WriterOp.regular path entry.relatedPath 0o755)
  else none

/-- The call of the serialization callback that returned `err` has called the
writer: it returned no error, or the error of the writer. -/
def calledWriter {ε : Type} : Option (WriteError ε) → Bool
  | none => true
  | some (WriteError.writerFailure _) => true
  | some _ => false

/-- Modelled from the spec: the message of a serialization error: "unknown file
type <value>" for a type outside the defined set; the wrapping errors carry the
message of their cause. -/
def WriteError.message {ε : Type} (causeMessage : ε → String) : WriteError ε → String
  | unknownFileType value => "unknown file type " ++ toString value
  | sourceOpenFailure path cause => "open " ++ path ++ ": " ++ causeMessage cause
  | writerFailure cause => causeMessage cause

mutual
/-- The second entry is the first with the bindings of every children map in
another order: one Go entry as two iteration orders of `range` show it. -/
def Entry.sameUpToOrder : Entry → Entry → Prop
  | Entry.mk t p none, e2 => e2 = Entry.mk t p none
  | Entry.mk t p (some l), e2 => ∃ l2, e2 = Entry.mk t p (some l2) ∧ Entry.reordering l l2
/-- The second bindings are the first in another order, each name bound to the
same entry up to the order inside it. -/
def Entry.reordering : Bindings → Bindings → Prop
  | [], l2 => l2 = []
  | (n, x) :: rest, l2 =>
    ∃ x2 a b, l2 = a ++ (n, x2) :: b ∧ Entry.sameUpToOrder x x2 ∧
      Entry.reordering rest (a ++ b)
end

/-- The second list is, up to a permutation, related to the first element by
element. -/
def PermRel {α β : Type} (R : α → β → Prop) (A : List α) (B : List β) : Prop :=
  ∃ B1, List.Perm B1 B ∧ List.Forall₂ R A B1

/-- The sample directory with two files. -/
def twoFiles : Entry :=
  Entry.mk TypeDirectory "" (some [("a", Entry.mk TypeRegular "x" none),
    ("b", Entry.mk TypeRegular "y" none)])

/-- The directory `twoFiles` with its bindings in the other order. -/
def twoFilesSwapped : Entry :=
  Entry.mk TypeDirectory "" (some [("b", Entry.mk TypeRegular "y" none),
    ("a", Entry.mk TypeRegular "x" none)])

/-- A directory that holds two entries of types outside the defined set, 98 and
99. -/
def twoUnknown : Entry :=
  Entry.mk TypeDirectory "" (some [("a", Entry.mk ⟨98⟩ "" none), ("z", Entry.mk ⟨99⟩ "" none)])

/-- The directory `twoUnknown` with its bindings in the other order. -/
def twoUnknownSwapped : Entry :=
  Entry.mk TypeDirectory "" (some [("z", Entry.mk ⟨99⟩ "" none), ("a", Entry.mk ⟨98⟩ "" none)])

/-- A directory that holds a link and an entry of type 99. -/
def linkThenUnknown : Entry :=
  Entry.mk TypeDirectory "" (some [("a", sampleLink), ("z", Entry.mk ⟨99⟩ "" none)])

/-! ## Maps -/

theorem Bindings.get_nil (name : String) : Bindings.get [] name = none := rfl

theorem Bindings.get_cons (k : String) (v : Entry) (rest : Bindings) (name : String) :
    Bindings.get ((k, v) :: rest) name =
      if k = name then some v else Bindings.get rest name := by
  unfold Bindings.get
  rw [List.lookup_cons]
  by_cases h : k = name
  · subst h; simp
  · have h2 : (name == k) = false := by
      simpa using fun h3 => h h3.symm
    simp [h, h2]

theorem Bindings.get_set_self (l : Bindings) (name : String) (entry : Entry) :
    (l.set name entry).get name = some entry := by
  induction l with
  | nil => simp [Bindings.set, Bindings.get_cons]
  | cons kv rest ih =>
    obtain ⟨k, v⟩ := kv
    by_cases h : k = name
    · simp [Bindings.set, h, Bindings.get_cons]
    · simp [Bindings.set, h, Bindings.get_cons, ih]

theorem Bindings.get_set_other (l : Bindings) (name other : String) (entry : Entry)
    (h : other ≠ name) : (l.set name entry).get other = l.get other := by
  induction l with
  | nil => simp [Bindings.set, Bindings.get_cons, Bindings.get_nil, Ne.symm h]
  | cons kv rest ih =>
    obtain ⟨k, v⟩ := kv
    by_cases hk : k = name
    · subst hk
      simp [Bindings.set, Bindings.get_cons, Ne.symm h]
    · simp [Bindings.set, hk, Bindings.get_cons, ih]

theorem Bindings.set_of_get_none (l : Bindings) (name : String) (entry : Entry)
    (h : l.get name = none) : l.set name entry = l ++ [(name, entry)] := by
  induction l with
  | nil => rfl
  | cons kv rest ih =>
    obtain ⟨k, v⟩ := kv
    rw [Bindings.get_cons] at h
    by_cases hk : k = name
    · simp [hk] at h
    · simp only [hk, if_false] at h
      simp [Bindings.set, hk, ih h]

/-! ## Insertion and lookup in one directory -/

theorem Entry.AddEntry_of_not_dir (e : Entry) (name : String) (entry : Entry)
    (h : e.IsDir = false) : e.AddEntry name entry = ⟨e, none, some ErrEntryNotDir⟩ := by
  simp [Entry.AddEntry, h]

theorem Entry.AddEntry_of_child (e : Entry) (name : String) (entry ee : Entry)
    (hd : e.IsDir = true) (hc : e.child name = some ee) :
    e.AddEntry name entry = ⟨e, some ee, some ErrEntryExists⟩ := by
  simp [Entry.AddEntry, hd, hc]

theorem Entry.AddEntry_of_new (e : Entry) (name : String) (entry : Entry)
    (hd : e.IsDir = true) (hc : e.child name = none) :
    e.AddEntry name entry =
      ⟨Entry.mk e.type e.relatedPath (some ((e.children.getD []).set name entry)),
        some entry, none⟩ := by
  simp only [Entry.AddEntry, hd, hc]
  cases h : e.children <;> simp

theorem Entry.child_mk (t : FileType) (p : String) (l : Bindings) (name : String) :
    (Entry.mk t p (some l)).child name = l.get name := rfl

theorem Entry.child_getD (e : Entry) (name : String) :
    Bindings.get (e.children.getD []) name = e.child name := by
  unfold Entry.child
  cases e.children <;> rfl

theorem Entry.child_AddEntry_new (e : Entry) (name : String) (entry : Entry)
    (hd : e.IsDir = true) (hc : e.child name = none) (other : String) :
    (e.AddEntry name entry).receiver.child other =
      if other = name then some entry else e.child other := by
  rw [Entry.AddEntry_of_new e name entry hd hc]
  simp only [Entry.child_mk]
  by_cases h : other = name
  · subst h; simp [Bindings.get_set_self]
  · simp [h, Bindings.get_set_other _ _ _ _ h, Entry.child_getD]

theorem Entry.IsDir_AddEntry (e : Entry) (name : String) (entry : Entry) :
    (e.AddEntry name entry).receiver.IsDir = e.IsDir := by
  unfold Entry.AddEntry
  split
  · rfl
  · split <;> rfl

/-- C1: inserting under a name that is already bound in a directory fails with
`ErrEntryExists`, returns the entry bound to the name and leaves the directory as
it was, whatever the candidate entry is; the same holds of `AddFile`,
`AddDirectory` and `AddLink`, and the name is still bound to the same entry. -/
theorem C1_duplicate_insert_rejected (d : Entry) (n : String) (ee x : Entry)
    (p : String) (hd : d.IsDir = true) (hn : d.child n = some ee) :
    d.AddEntry n x = ⟨d, some ee, some ErrEntryExists⟩ ∧
    d.AddFile n p = ⟨d, some ee, some ErrEntryExists⟩ ∧
    d.AddDirectory n = ⟨d, some ee, some ErrEntryExists⟩ ∧
    d.AddLink n p = ⟨d, some ee, some ErrEntryExists⟩ ∧
    (d.AddEntry n x).receiver.children = d.children ∧
    (d.AddEntry n x).receiver.GetEntry n = (some ee, none) := by
  have h := fun y => Entry.AddEntry_of_child d n y ee hd hn
  refine ⟨h x, h _, h _, h _, by rw [h x], ?_⟩
  rw [h x]
  simp [Entry.GetEntry, hd, hn]

/-- Witness of C1: a directory holding a regular file under "file" rejects a link
inserted under the same name. -/
theorem C1_duplicate_insert_rejected_witness :
    (sampleDir.IsDir = true ∧ sampleDir.child "file" = some sampleFile) ∧
    (sampleDir.AddEntry "file" sampleLink = ⟨sampleDir, some sampleFile, some ErrEntryExists⟩ ∧
    sampleDir.AddFile "file" "target" = ⟨sampleDir, some sampleFile, some ErrEntryExists⟩ ∧
    sampleDir.AddDirectory "file" = ⟨sampleDir, some sampleFile, some ErrEntryExists⟩ ∧
    sampleDir.AddLink "file" "target" = ⟨sampleDir, some sampleFile, some ErrEntryExists⟩ ∧
    (sampleDir.AddEntry "file" sampleLink).receiver.children = sampleDir.children ∧
    (sampleDir.AddEntry "file" sampleLink).receiver.GetEntry "file" = (some sampleFile, none)) :=
  ⟨⟨rfl, rfl⟩,
    C1_duplicate_insert_rejected sampleDir "file" sampleFile sampleLink "target" rfl rfl⟩


theorem Call.apply_eq (c : Call) (e : Entry) : c.apply e = e.AddEntry c.name c.entry := by
  cases c <;> rfl

theorem afterCalls_spec (cs : List Call) : ∀ (d : Entry), d.IsDir = true →
    (cs.map Call.name).Nodup → (∀ c ∈ cs, d.child c.name = none) →
    (afterCalls d cs).IsDir = true ∧
    (∀ c ∈ cs, (afterCalls d cs).child c.name = some c.entry) ∧
    (∀ m, m ∉ cs.map Call.name → (afterCalls d cs).child m = d.child m) ∧
    List.Forall₂ (fun c r => r.err = none ∧ r.entry = some c.entry) cs (runCalls d cs) := by
  induction cs with
  | nil =>
    intro d hd _ _
    exact ⟨hd, by simp, fun _ _ => rfl, List.Forall₂.nil⟩
  | cons c cs ih =>
    intro d hd hnd hnew
    rw [List.map_cons, List.nodup_cons] at hnd
    have hc : d.child c.name = none := hnew c (List.mem_cons_self _ _)
    have hchild := Entry.child_AddEntry_new d c.name c.entry hd hc
    have hdir : (d.AddEntry c.name c.entry).receiver.IsDir = true := by
      rw [Entry.IsDir_AddEntry]; exact hd
    have hnew2 : ∀ c2 ∈ cs, (d.AddEntry c.name c.entry).receiver.child c2.name = none := by
      intro c2 hc2
      rw [hchild]
      have hne : c2.name ≠ c.name := by
        intro h
        exact hnd.1 (h ▸ List.mem_map_of_mem Call.name hc2)
      simp [hne, hnew c2 (List.mem_cons_of_mem _ hc2)]
    obtain ⟨h1, h2, h3, h4⟩ := ih _ hdir hnd.2 hnew2
    simp only [afterCalls, runCalls, Call.apply_eq]
    refine ⟨h1, ?_, ?_, ?_⟩
    · intro c2 hc2
      rcases List.mem_cons.1 hc2 with rfl | hc2
      · rw [h3 _ hnd.1, hchild]; simp
      · exact h2 c2 hc2
    · intro m hm
      rw [List.map_cons, List.mem_cons, not_or] at hm
      rw [h3 m hm.2, hchild]
      simp [hm.1]
    · refine List.Forall₂.cons ?_ h4
      rw [Entry.AddEntry_of_new d c.name c.entry hd hc]
      exact ⟨rfl, rfl⟩

/-- C2: on a directory, a sequence of `AddFile` / `AddDirectory` / `AddLink` calls
with pairwise distinct names that are not yet bound succeeds call by call (each
call returns no error and the entry it constructed), and afterwards `GetEntry` on
every inserted name returns, without error, an entry with the `Type` and the
`RelatedPath` the call constructed it with. -/
theorem C2_get_after_unique_inserts (d : Entry) (cs : List Call) (hd : d.IsDir = true)
    (hdistinct : (cs.map Call.name).Nodup) (hnew : ∀ c ∈ cs, d.child c.name = none) :
    List.Forall₂ (fun c r => r.err = none ∧ r.entry = some c.entry) cs (runCalls d cs) ∧
    ∀ c ∈ cs, ∃ x, (afterCalls d cs).GetEntry c.name = (some x, none) ∧
      x.type = c.type ∧ x.relatedPath = c.relatedPath := by
  obtain ⟨h1, h2, _, h4⟩ := afterCalls_spec cs d hd hdistinct hnew
  refine ⟨h4, fun c hc => ⟨c.entry, ?_, rfl, rfl⟩⟩
  simp [Entry.GetEntry, h1, h2 c hc]

/-- Witness of C2: a file, a directory and a link added to the directory of the
tests, which holds "file" only. -/
theorem C2_get_after_unique_inserts_witness :
    (sampleDir.IsDir = true ∧
      ([Call.addFile "a" "src", Call.addDirectory "b", Call.addLink "c" "/lib"].map
        Call.name).Nodup ∧
      ∀ c ∈ [Call.addFile "a" "src", Call.addDirectory "b", Call.addLink "c" "/lib"],
        sampleDir.child c.name = none) ∧
    (List.Forall₂ (fun c r => r.err = none ∧ r.entry = some c.entry)
        [Call.addFile "a" "src", Call.addDirectory "b", Call.addLink "c" "/lib"]
        (runCalls sampleDir
          [Call.addFile "a" "src", Call.addDirectory "b", Call.addLink "c" "/lib"]) ∧
      ∀ c ∈ [Call.addFile "a" "src", Call.addDirectory "b", Call.addLink "c" "/lib"],
        ∃ x, (afterCalls sampleDir
            [Call.addFile "a" "src", Call.addDirectory "b", Call.addLink "c" "/lib"]).GetEntry
              c.name = (some x, none) ∧
          x.type = c.type ∧ x.relatedPath = c.relatedPath) :=
  have hdistinct : ([Call.addFile "a" "src", Call.addDirectory "b",
      Call.addLink "c" "/lib"].map Call.name).Nodup := by decide
  have hnew : ∀ c ∈ [Call.addFile "a" "src", Call.addDirectory "b", Call.addLink "c" "/lib"],
      sampleDir.child c.name = none := by
    intro c hc
    simp only [List.mem_cons, List.mem_singleton, List.not_mem_nil, or_false] at hc
    rcases hc with rfl | rfl | rfl <;> rfl
  ⟨⟨rfl, hdistinct, hnew⟩,
    C2_get_after_unique_inserts sampleDir _ rfl hdistinct hnew⟩



/-- C3: on an entry that is not a Directory, `AddEntry` fails with `ErrEntryNotDir`
for every name and every candidate entry, returns no entry and leaves the
receiver as it was, and so do `AddFile`, `AddDirectory` and `AddLink`; the
receiver has the children it had before, so it acquires no child. -/
theorem C3_insert_into_non_directory (e : Entry) (n : String) (x : Entry) (p : String)
    (he : e.type ≠ TypeDirectory) :
    e.AddEntry n x = ⟨e, none, some ErrEntryNotDir⟩ ∧
    e.AddFile n p = ⟨e, none, some ErrEntryNotDir⟩ ∧
    e.AddDirectory n = ⟨e, none, some ErrEntryNotDir⟩ ∧
    e.AddLink n p = ⟨e, none, some ErrEntryNotDir⟩ ∧
    (e.AddEntry n x).receiver.children = e.children ∧
    (∀ m, (e.AddEntry n x).receiver.child m = e.child m) := by
  have hd : e.IsDir = false := by simp [Entry.IsDir, he]
  have h := fun y => Entry.AddEntry_of_not_dir e n y hd
  refine ⟨h x, h _, h _, h _, by rw [h x], fun m => by rw [h x]⟩

/-- Witness of C3: nothing can be added to the regular file of the tests. -/
theorem C3_insert_into_non_directory_witness :
    sampleFile.type ≠ TypeDirectory ∧
    (sampleFile.AddEntry "new" sampleLink = ⟨sampleFile, none, some ErrEntryNotDir⟩ ∧
    sampleFile.AddFile "new" "p" = ⟨sampleFile, none, some ErrEntryNotDir⟩ ∧
    sampleFile.AddDirectory "new" = ⟨sampleFile, none, some ErrEntryNotDir⟩ ∧
    sampleFile.AddLink "new" "p" = ⟨sampleFile, none, some ErrEntryNotDir⟩ ∧
    (sampleFile.AddEntry "new" sampleLink).receiver.children = sampleFile.children ∧
    (∀ m, (sampleFile.AddEntry "new" sampleLink).receiver.child m = sampleFile.child m)) :=
  ⟨by decide, C3_insert_into_non_directory sampleFile "new" sampleLink "p" (by decide)⟩

theorem resolve_append (pre : List String) : ∀ (e x : Entry) (rest : List String),
    resolve e pre = (some x, none) → resolve e (pre ++ rest) = resolve x rest := by
  induction pre with
  | nil =>
    intro e x rest h
    simp only [resolve, Prod.mk.injEq, Option.some.injEq, and_true] at h
    subst h; rfl
  | cons seg pre ih =>
    intro e x rest h
    simp only [List.cons_append, resolve] at h ⊢
    rcases hg : e.GetEntry seg with ⟨_ | c, _ | err⟩ <;> simp only [hg] at h ⊢
    · simp at h
    · simp at h
    · exact ih c x rest h
    · simp at h

/-- C4: when a path is resolved segment by segment with `Entry.GetEntry` and its
segments up to some non-final one resolve to an entry that is not a Directory,
the resolution of the whole path fails with `ErrEntryNotDir` and returns no entry,
whatever the remaining segments are. -/
theorem C4_non_directory_intermediate (root x : Entry) (front : List String)
    (seg next : String) (rest : List String)
    (hx : resolve root (front ++ [seg]) = (some x, none)) (hnd : x.type ≠ TypeDirectory) :
    resolve root (front ++ seg :: next :: rest) = (none, some ErrEntryNotDir) := by
  have h := resolve_append (front ++ [seg]) root x (next :: rest) hx
  rw [List.append_assoc, List.singleton_append] at h
  rw [h]
  simp [resolve, Entry.GetEntry, Entry.IsDir, hnd]

/-- Witness of C4: below the regular file "file" of the directory of the tests no
path resolves, here "file/file". -/
theorem C4_non_directory_intermediate_witness :
    (resolve sampleDir ([] ++ ["file"]) = (some sampleFile, none) ∧
      sampleFile.type ≠ TypeDirectory) ∧
    resolve sampleDir ([] ++ "file" :: "file" :: []) = (none, some ErrEntryNotDir) :=
  ⟨⟨rfl, by decide⟩,
    C4_non_directory_intermediate sampleDir sampleFile [] "file" "file" [] rfl (by decide)⟩


/-- C5: `GetEntry` has three disjoint cases: on an entry that is not a Directory
it returns `ErrEntryNotDir` and no entry, whatever its children are; on a Directory
without the name it returns `ErrEntryNotExists` and no entry; on a Directory with
the name it returns the entry bound to the name and no error. It returns no
error exactly when the receiver is a Directory and the name is bound. -/
theorem C5_GetEntry_cases (e : Entry) (n : String) :
    (e.type ≠ TypeDirectory → e.GetEntry n = (none, some ErrEntryNotDir)) ∧
    (e.type = TypeDirectory → e.child n = none →
      e.GetEntry n = (none, some ErrEntryNotExists)) ∧
    (∀ x, e.type = TypeDirectory → e.child n = some x → e.GetEntry n = (some x, none)) ∧
    ((e.GetEntry n).2 = none ↔ e.type = TypeDirectory ∧ (e.child n).isSome = true) ∧
    ((e.GetEntry n).1.isSome = true ↔ (e.GetEntry n).2 = none) := by
  by_cases hd : e.type = TypeDirectory
  · cases hc : e.child n <;> simp [Entry.GetEntry, Entry.IsDir, hd, hc]
  · simp [Entry.GetEntry, Entry.IsDir, hd]

/-- Witness of C5: the three cases on the entries of the tests; the regular file
is given a child "file" to show that its children are not looked at. -/
theorem C5_GetEntry_cases_witness :
    (Entry.mk TypeRegular "" (some [("file", sampleFile)])).GetEntry "file" =
      (none, some ErrEntryNotDir) ∧
    sampleDir.GetEntry "404" = (none, some ErrEntryNotExists) ∧
    sampleDir.GetEntry "file" = (some sampleFile, none) :=
  ⟨(C5_GetEntry_cases (Entry.mk TypeRegular "" (some [("file", sampleFile)])) "file").1
      (by decide),
    (C5_GetEntry_cases sampleDir "404").2.1 rfl rfl,
    (C5_GetEntry_cases sampleDir "file").2.2.1 sampleFile rfl rfl⟩

/-- C6: on a directory in which the name is not bound, `AddFile` returns without
error an entry of `Type` Regular with the given `RelatedPath` and a `nil` children
map, `AddDirectory` one of `Type` Directory with empty `RelatedPath`, `AddLink`
one of `Type` Link with the given `RelatedPath`; the returned entry is the one
`GetEntry` then finds under the name. -/
theorem C6_typed_constructors (d : Entry) (n p : String) (hd : d.IsDir = true)
    (hn : d.child n = none) :
    ((d.AddFile n p).err = none ∧
      (d.AddFile n p).entry = some (Entry.mk TypeRegular p none) ∧
      (d.AddFile n p).receiver.GetEntry n = ((d.AddFile n p).entry, none)) ∧
    ((d.AddDirectory n).err = none ∧
      (d.AddDirectory n).entry = some (Entry.mk TypeDirectory "" none) ∧
      (d.AddDirectory n).receiver.GetEntry n = ((d.AddDirectory n).entry, none)) ∧
    ((d.AddLink n p).err = none ∧
      (d.AddLink n p).entry = some (Entry.mk TypeLink p none) ∧
      (d.AddLink n p).receiver.GetEntry n = ((d.AddLink n p).entry, none)) := by
  have key : ∀ x : Entry, (d.AddEntry n x).err = none ∧ (d.AddEntry n x).entry = some x ∧
      (d.AddEntry n x).receiver.GetEntry n = ((d.AddEntry n x).entry, none) := by
    intro x
    have hdir : (d.AddEntry n x).receiver.IsDir = true := by
      rw [Entry.IsDir_AddEntry]; exact hd
    have hchild := Entry.child_AddEntry_new d n x hd hn n
    rw [if_pos rfl] at hchild
    refine ⟨?_, ?_, ?_⟩
    · rw [Entry.AddEntry_of_new d n x hd hn]
    · rw [Entry.AddEntry_of_new d n x hd hn]
    · simp only [Entry.GetEntry, hdir, hchild]
      rw [Entry.AddEntry_of_new d n x hd hn]
      rfl
  exact ⟨key _, key _, key _⟩

/-- Witness of C6: a file, a directory and a link added under "new" to the
directory of the tests. -/
theorem C6_typed_constructors_witness :
    (sampleDir.IsDir = true ∧ sampleDir.child "new" = none) ∧
    (((sampleDir.AddFile "new" "src").err = none ∧
      (sampleDir.AddFile "new" "src").entry = some (Entry.mk TypeRegular "src" none) ∧
      (sampleDir.AddFile "new" "src").receiver.GetEntry "new" =
        ((sampleDir.AddFile "new" "src").entry, none)) ∧
    ((sampleDir.AddDirectory "new").err = none ∧
      (sampleDir.AddDirectory "new").entry = some (Entry.mk TypeDirectory "" none) ∧
      (sampleDir.AddDirectory "new").receiver.GetEntry "new" =
        ((sampleDir.AddDirectory "new").entry, none)) ∧
    ((sampleDir.AddLink "new" "src").err = none ∧
      (sampleDir.AddLink "new" "src").entry = some (Entry.mk TypeLink "src" none) ∧
      (sampleDir.AddLink "new" "src").receiver.GetEntry "new" =
        ((sampleDir.AddLink "new" "src").entry, none))) :=
  ⟨⟨rfl, rfl⟩, C6_typed_constructors sampleDir "new" "src" rfl rfl⟩

/-- C7: `AddEntry` returns no error exactly when the receiver is a Directory and
the name is not bound in its children. In that case it returns the entry passed
in, the receiver keeps its `Type` and `RelatedPath`, and its children are the
previous bindings with the name bound to that entry in addition: every other name
is bound as before. On a directory with a `nil` children map the children become
the single binding. -/
theorem C7_AddEntry_success (e : Entry) (n : String) (x : Entry) :
    ((e.AddEntry n x).err = none ↔ e.type = TypeDirectory ∧ e.child n = none) ∧
    (e.type = TypeDirectory ∧ e.child n = none →
      (e.AddEntry n x).entry = some x ∧
      (e.AddEntry n x).receiver.type = e.type ∧
      (e.AddEntry n x).receiver.relatedPath = e.relatedPath ∧
      (e.AddEntry n x).receiver.children = some (e.children.getD [] ++ [(n, x)]) ∧
      (∀ m, (e.AddEntry n x).receiver.child m = if m = n then some x else e.child m) ∧
      (e.children = none → (e.AddEntry n x).receiver.children = some [(n, x)])) := by
  constructor
  · by_cases hd : e.type = TypeDirectory
    · cases hc : e.child n <;> simp [Entry.AddEntry, Entry.IsDir, hd, hc]
    · simp [Entry.AddEntry, Entry.IsDir, hd]
  · rintro ⟨ht, hc⟩
    have hd : e.IsDir = true := by simp [Entry.IsDir, ht]
    have hset : (e.children.getD []).set n x = e.children.getD [] ++ [(n, x)] :=
      Bindings.set_of_get_none _ n x (by rw [Entry.child_getD]; exact hc)
    refine ⟨?_, ?_, ?_, ?_, Entry.child_AddEntry_new e n x hd hc, ?_⟩
    · rw [Entry.AddEntry_of_new e n x hd hc]
    · rw [Entry.AddEntry_of_new e n x hd hc]; rfl
    · rw [Entry.AddEntry_of_new e n x hd hc]; rfl
    · rw [Entry.AddEntry_of_new e n x hd hc, ← hset]; rfl
    · intro hnil
      rw [Entry.AddEntry_of_new e n x hd hc, hnil]
      rfl

/-- Witness of C7: the first insertion into the directory of the tests, whose
children map is `nil`. -/
theorem C7_AddEntry_success_witness :
    (dirEntry.type = TypeDirectory ∧ dirEntry.child "new" = none) ∧
    ((dirEntry.AddEntry "new" sampleFile).err = none ∧
      (dirEntry.AddEntry "new" sampleFile).entry = some sampleFile ∧
      (dirEntry.AddEntry "new" sampleFile).receiver.children =
        some [("new", sampleFile)]) :=
  have h := C7_AddEntry_success dirEntry "new" sampleFile
  ⟨⟨rfl, rfl⟩, h.1.2 ⟨rfl, rfl⟩, (h.2 ⟨rfl, rfl⟩).1, (h.2 ⟨rfl, rfl⟩).2.2.2.2.2 rfl⟩


/-! ## The traversal -/

theorem callEach_append {σ ε : Type} (fn : WalkFunc σ ε) (a b : List (String × Entry))
    (s : σ) :
    callEach fn (a ++ b) s =
      match callEach fn a s with
      | (s1, some err) => (s1, some err)
      | (s1, none) => callEach fn b s1 := by
  induction a generalizing s with
  | nil => rfl
  | cons x a ih =>
    obtain ⟨p, e⟩ := x
    simp only [List.cons_append, callEach]
    rcases h : fn p e s with ⟨s1, _ | err⟩
    · exact ih s1
    · rfl

mutual
theorem Entry.walk_eq_callEach {σ ε : Type} (join : String → String → String)
    (fn : WalkFunc σ ε) : ∀ (e : Entry) (base : String) (s : σ),
    e.walk join fn base s =
      callEach fn (e.visits.map (fun v => (pathOf join base v.1, v.2))) s
  | Entry.mk _ _ none, base, s => by simp [Entry.walk, Entry.visits, callEach]
  | Entry.mk _ _ (some l), base, s => by
    simp only [Entry.walk, Entry.visits]
    exact Entry.walkRange_eq_callEach join fn l base s
theorem Entry.walkRange_eq_callEach {σ ε : Type} (join : String → String → String)
    (fn : WalkFunc σ ε) : ∀ (l : Bindings) (base : String) (s : σ),
    Entry.walkRange join fn l base s =
      callEach fn ((Entry.visitsRange l).map (fun v => (pathOf join base v.1, v.2))) s
  | [], base, s => by simp [Entry.walkRange, Entry.visitsRange, callEach]
  | (name, entry) :: rest, base, s => by
    simp only [Entry.walkRange, Entry.visitsRange, List.map_cons, List.map_append, callEach,
      pathOf, List.foldl_cons, List.foldl_nil]
    rcases h : fn (join base name) entry s with ⟨s1, _ | err⟩
    · simp only
      rw [callEach_append]
      by_cases hd : entry.IsDir = true
      · simp only [hd, if_true, List.map_map]
        have ih := Entry.walk_eq_callEach join fn entry (join base name) s1
        simp only [pathOf] at ih
        rw [ih]
        have : ((fun v : List String × Entry => (List.foldl join base v.1, v.2)) ∘
            fun v : List String × Entry => (name :: v.1, v.2)) =
            fun v => (List.foldl join (join base name) v.1, v.2) := by
          funext v; rfl
        rw [this]
        have ih2 := fun s2 => Entry.walkRange_eq_callEach join fn rest base s2
        simp only [pathOf] at ih2
        simp only [ih2]
      · simp only [hd, List.map_nil, callEach]
        have ih2 := Entry.walkRange_eq_callEach join fn rest base s1
        simp only [pathOf] at ih2
        simpa using ih2
    · rfl
end


mutual
theorem Entry.induction_entry (P : Entry → Prop) (Q : Bindings → Prop)
    (h1 : ∀ t p, P (Entry.mk t p none)) (h2 : ∀ t p l, Q l → P (Entry.mk t p (some l)))
    (h3 : Q []) (h4 : ∀ n e rest, P e → Q rest → Q ((n, e) :: rest)) : ∀ e, P e
  | Entry.mk t p none => h1 t p
  | Entry.mk t p (some l) => h2 t p l (Entry.induction_bindings P Q h1 h2 h3 h4 l)
theorem Entry.induction_bindings (P : Entry → Prop) (Q : Bindings → Prop)
    (h1 : ∀ t p, P (Entry.mk t p none)) (h2 : ∀ t p l, Q l → P (Entry.mk t p (some l)))
    (h3 : Q []) (h4 : ∀ n e rest, P e → Q rest → Q ((n, e) :: rest)) : ∀ l, Q l
  | [] => h3
  | (n, e) :: rest =>
    h4 n e rest (Entry.induction_entry P Q h1 h2 h3 h4 e)
      (Entry.induction_bindings P Q h1 h2 h3 h4 rest)
end

theorem Entry.wf_some (t : FileType) (p : String) (l : Bindings) :
    (Entry.mk t p (some l)).wf = true ↔
      (l.map Prod.fst).Nodup ∧ Entry.wfRange l = true := by
  simp [Entry.wf]

theorem Entry.wfRange_cons (n : String) (e : Entry) (rest : Bindings) :
    Entry.wfRange ((n, e) :: rest) = true ↔ e.wf = true ∧ Entry.wfRange rest = true := by
  simp [Entry.wfRange]

/-- The visits of a tree, one level unfolded. -/
theorem Entry.visitsRange_cons (n : String) (e : Entry) (rest : Bindings) :
    Entry.visitsRange ((n, e) :: rest) =
      ([n], e) :: ((if e.IsDir then e.visits.map (fun v => (n :: v.1, v.2)) else []) ++
        Entry.visitsRange rest) := by
  simp [Entry.visitsRange]

theorem Entry.visitsRange_head (l : Bindings) :
    ∀ v ∈ Entry.visitsRange l, ∃ n tl, n ∈ l.map Prod.fst ∧ v.1 = n :: tl := by
  induction l with
  | nil => intro v hv; simp [Entry.visitsRange] at hv
  | cons kv rest ih =>
    obtain ⟨n, e⟩ := kv
    intro v hv
    rw [Entry.visitsRange_cons, List.mem_cons, List.mem_append] at hv
    rcases hv with rfl | hv | hv
    · exact ⟨n, [], by simp, rfl⟩
    · by_cases hd : e.IsDir = true
      · simp only [hd, if_true, List.mem_map] at hv
        obtain ⟨v', _, rfl⟩ := hv
        exact ⟨n, v'.1, by simp, rfl⟩
      · simp [hd] at hv
    · obtain ⟨m, tl, hm, htl⟩ := ih v hv
      exact ⟨m, tl, by simp only [List.map_cons, List.mem_cons]; exact Or.inr hm, htl⟩

theorem Entry.visits_ne_nil (e : Entry) : ∀ v ∈ e.visits, v.1 ≠ [] := by
  intro v hv
  rcases e with ⟨t, p, _ | l⟩
  · simp [Entry.visits] at hv
  · simp only [Entry.visits] at hv
    obtain ⟨n, tl, _, h⟩ := Entry.visitsRange_head l v hv
    simp [h]

theorem Bindings.mem_of_get (l : Bindings) (k : String) (v : Entry)
    (h : l.get k = some v) : (k, v) ∈ l := by
  induction l with
  | nil => simp [Bindings.get_nil] at h
  | cons kv rest ih =>
    obtain ⟨k2, v2⟩ := kv
    rw [Bindings.get_cons] at h
    by_cases hk : k2 = k
    · simp only [hk, if_true, Option.some.injEq] at h
      simp [hk, h]
    · simp only [hk, if_false] at h
      exact List.mem_cons_of_mem _ (ih h)

theorem Bindings.get_of_mem (l : Bindings) (k : String) (v : Entry)
    (hl : (l.map Prod.fst).Nodup) (h : (k, v) ∈ l) : l.get k = some v := by
  induction l with
  | nil => simp at h
  | cons kv rest ih =>
    obtain ⟨k2, v2⟩ := kv
    rw [List.map_cons, List.nodup_cons] at hl
    rw [Bindings.get_cons]
    rcases List.mem_cons.1 h with heq | hmem
    · simp only [Prod.mk.injEq] at heq
      simp [heq.1, heq.2]
    · have hne : k2 ≠ k := by
        intro hk
        subst hk
        exact hl.1 (List.mem_map.2 ⟨(k2, v), hmem, rfl⟩)
      simp only [hne, if_false]
      exact ih hl.2 hmem

theorem Entry.wfRange_mem (l : Bindings) (h : Entry.wfRange l = true) :
    ∀ kv ∈ l, kv.2.wf = true := by
  induction l with
  | nil => intro kv hkv; simp at hkv
  | cons kv rest ih =>
    obtain ⟨n, e⟩ := kv
    rw [Entry.wfRange_cons] at h
    intro kv hkv
    rcases List.mem_cons.1 hkv with rfl | hkv
    · exact h.1
    · exact ih h.2 kv hkv

/-- Membership in the visits of bindings, one level unfolded. -/
theorem Entry.mem_visitsRange (l : Bindings) (c : List String) (x : Entry) :
    (c, x) ∈ Entry.visitsRange l ↔
      ∃ n e, (n, e) ∈ l ∧ ((c = [n] ∧ x = e) ∨
        (e.IsDir = true ∧ ∃ c', c = n :: c' ∧ (c', x) ∈ e.visits)) := by
  induction l with
  | nil => simp [Entry.visitsRange]
  | cons kv rest ih =>
    obtain ⟨n, e⟩ := kv
    rw [Entry.visitsRange_cons, List.mem_cons, List.mem_append, ih]
    constructor
    · rintro (h | h | ⟨n2, e2, hmem, h⟩)
      · simp only [Prod.mk.injEq] at h
        exact ⟨n, e, List.mem_cons_self _ _, Or.inl h⟩
      · by_cases hd : e.IsDir = true
        · simp only [hd, if_true, List.mem_map] at h
          obtain ⟨v', hv', heq⟩ := h
          simp only [Prod.mk.injEq] at heq
          refine ⟨n, e, List.mem_cons_self _ _, Or.inr ⟨hd, v'.1, heq.1.symm, ?_⟩⟩
          rw [← heq.2]; exact hv'
        · simp [hd] at h
      · exact ⟨n2, e2, List.mem_cons_of_mem _ hmem, h⟩
    · rintro ⟨n2, e2, hmem, h⟩
      rcases List.mem_cons.1 hmem with heq | hmem
      · simp only [Prod.mk.injEq] at heq
        obtain ⟨rfl, rfl⟩ := heq
        rcases h with h | ⟨hd, c', hc, hv⟩
        · exact Or.inl (by simp [h.1, h.2])
        · refine Or.inr (Or.inl ?_)
          simp only [hd, if_true, List.mem_map]
          exact ⟨(c', x), hv, by simp [hc]⟩
      · exact Or.inr (Or.inr ⟨n2, e2, hmem, h⟩)


theorem Entry.wf_child (e : Entry) (n : String) (y : Entry) (hwf : e.wf = true)
    (h : e.child n = some y) : y.wf = true := by
  rcases e with ⟨t, p, _ | l⟩
  · simp [Entry.child, Entry.children] at h
  · rw [Entry.wf_some] at hwf
    exact Entry.wfRange_mem l hwf.2 (n, y) (Bindings.mem_of_get l n y h)

/-- Membership in the visits of an entry with unique keys, one level unfolded. -/
theorem Entry.mem_visits (e : Entry) (hwf : e.wf = true) (c : List String) (x : Entry) :
    (c, x) ∈ e.visits ↔
      ∃ n y, e.child n = some y ∧ ((c = [n] ∧ x = y) ∨
        (y.IsDir = true ∧ ∃ c', c = n :: c' ∧ (c', x) ∈ y.visits)) := by
  rcases e with ⟨t, p, _ | l⟩
  · simp [Entry.visits, Entry.child, Entry.children]
  · rw [Entry.wf_some] at hwf
    simp only [Entry.visits, Entry.child_mk, Entry.mem_visitsRange]
    constructor
    · rintro ⟨n, y, hmem, h⟩
      exact ⟨n, y, Bindings.get_of_mem l n y hwf.1 hmem, h⟩
    · rintro ⟨n, y, hget, h⟩
      exact ⟨n, y, Bindings.mem_of_get l n y hget, h⟩

theorem Entry.not_mem_visits_nil (e : Entry) (x : Entry) : ([], x) ∉ e.visits :=
  fun h => Entry.visits_ne_nil e _ h rfl

/-- With unique keys, the visits are the chains that `reach` follows, each with
the entry it reaches. -/
theorem Entry.mem_visits_iff_reach (c : List String) : ∀ (e x : Entry), e.wf = true →
    ((c, x) ∈ e.visits ↔ e.reach c = some x) := by
  induction c with
  | nil =>
    intro e x _
    simp [Entry.reach, Entry.not_mem_visits_nil]
  | cons n rest ih =>
    intro e x hwf
    rw [Entry.mem_visits e hwf]
    cases rest with
    | nil =>
      simp only [Entry.reach]
      constructor
      · rintro ⟨n2, y, hget, h | ⟨_, c', hc, hv⟩⟩
        · simp only [List.cons.injEq, and_true] at h
          rw [h.1, h.2]; exact hget
        · simp only [List.cons.injEq] at hc
          rw [← hc.2] at hv
          exact absurd hv (Entry.not_mem_visits_nil y x)
      · intro h
        exact ⟨n, x, h, Or.inl ⟨rfl, rfl⟩⟩
    | cons m rest =>
      simp only [Entry.reach]
      constructor
      · rintro ⟨n2, y, hget, h | ⟨hd, c', hc, hv⟩⟩
        · simp at h
        · simp only [List.cons.injEq] at hc
          obtain ⟨rfl, rfl⟩ := hc
          simp only [hget, hd, if_true]
          exact (ih y x (Entry.wf_child e n y hwf hget)).1 hv
      · intro h
        cases hget : e.child n with
        | none => simp [hget] at h
        | some y =>
          simp only [hget] at h
          by_cases hd : y.IsDir = true
          · simp only [hd, if_true] at h
            exact ⟨n, y, hget, Or.inr ⟨hd, m :: rest, rfl,
              (ih y x (Entry.wf_child e n y hwf hget)).2 h⟩⟩
          · simp [hd] at h


/-! ## The order of the traversal -/

theorem cons_isPrefix_cons (n m : String) (a b : List String) :
    (n :: a) <+: (m :: b) ↔ n = m ∧ a <+: b := by
  constructor
  · rintro ⟨t, ht⟩
    simp only [List.cons_append, List.cons.injEq] at ht
    exact ⟨ht.1, t, ht.2⟩
  · rintro ⟨rfl, t, ht⟩
    exact ⟨t, by simp [ht]⟩

theorem DepthFirst.nil : DepthFirst [] := by
  intro c hc
  simp at hc

theorem DepthFirst.map_cons (n : String) (cs : List (List String)) (h : DepthFirst cs) :
    DepthFirst (cs.map (fun c => n :: c)) := by
  intro c hc
  obtain ⟨c0, hc0, rfl⟩ := List.mem_map.1 hc
  obtain ⟨front, block, back, heq, hb, hfb⟩ := h c0 hc0
  refine ⟨front.map (fun c => n :: c), block.map (fun c => n :: c),
    back.map (fun c => n :: c), ?_, ?_, ?_⟩
  · rw [heq]; simp
  · intro d hd
    obtain ⟨d0, hd0, rfl⟩ := List.mem_map.1 hd
    exact (cons_isPrefix_cons n n c0 d0).2 ⟨rfl, hb d0 hd0⟩
  · intro d hd
    rw [← List.map_append] at hd
    obtain ⟨d0, hd0, rfl⟩ := List.mem_map.1 hd
    intro hp
    exact hfb d0 hd0 ((cons_isPrefix_cons n n c0 d0).1 hp).2

theorem DepthFirst.append (a b : List (List String)) (ha : DepthFirst a) (hb : DepthFirst b)
    (hab : ∀ x ∈ a, ∀ y ∈ b, ¬ x <+: y ∧ ¬ y <+: x) : DepthFirst (a ++ b) := by
  intro c hc
  rcases List.mem_append.1 hc with hca | hcb
  · obtain ⟨front, block, back, heq, hbl, hfb⟩ := ha c hca
    refine ⟨front, block, back ++ b, ?_, hbl, ?_⟩
    · rw [heq]; simp
    · intro d hd
      rw [← List.append_assoc, List.mem_append] at hd
      rcases hd with hd | hd
      · exact hfb d hd
      · exact (hab c hca d hd).1
  · obtain ⟨front, block, back, heq, hbl, hfb⟩ := hb c hcb
    refine ⟨a ++ front, block, back, ?_, hbl, ?_⟩
    · rw [heq]; simp
    · intro d hd
      rw [List.append_assoc, List.mem_append] at hd
      rcases hd with hd | hd
      · exact (hab d hd c hcb).2
      · exact hfb d hd

theorem DepthFirst.cons_parent (c : List String) (a : List (List String))
    (ha : DepthFirst a) (hext : ∀ x ∈ a, c <+: x ∧ ¬ x <+: c) : DepthFirst (c :: a) := by
  intro x hx
  rcases List.mem_cons.1 hx with rfl | hxa
  · exact ⟨[], a, [], by simp, fun d hd => (hext d hd).1, by simp⟩
  · obtain ⟨front, block, back, heq, hbl, hfb⟩ := ha x hxa
    refine ⟨c :: front, block, back, ?_, hbl, ?_⟩
    · rw [heq]; simp
    · intro d hd
      rw [List.cons_append, List.mem_cons] at hd
      rcases hd with rfl | hd
      · exact (hext x hxa).2
      · exact hfb d hd

/-- The chains of the visits of bindings, one binding unfolded. -/
theorem Entry.chainsRange_cons (n : String) (e : Entry) (rest : Bindings) :
    (Entry.visitsRange ((n, e) :: rest)).map Prod.fst =
      ([n] :: (if e.IsDir then (e.visits.map Prod.fst).map (fun c => n :: c) else [])) ++
        (Entry.visitsRange rest).map Prod.fst := by
  rw [Entry.visitsRange_cons]
  by_cases hd : e.IsDir = true
  · simp [hd, Function.comp_def]
  · simp [hd]

theorem Entry.chainsRange_head (l : Bindings) :
    ∀ c ∈ (Entry.visitsRange l).map Prod.fst, ∃ n tl, n ∈ l.map Prod.fst ∧ c = n :: tl := by
  intro c hc
  obtain ⟨v, hv, rfl⟩ := List.mem_map.1 hc
  exact Entry.visitsRange_head l v hv

/-- The chains below one child: they extend `[n]` properly. -/
theorem Entry.chains_child (n : String) (e : Entry) :
    ∀ c ∈ (if e.IsDir then (e.visits.map Prod.fst).map (fun c => n :: c) else []),
      ∃ tl, tl ≠ [] ∧ c = n :: tl := by
  intro c hc
  by_cases hd : e.IsDir = true
  · simp only [hd, if_true, List.mem_map] at hc
    obtain ⟨c0, ⟨v, hv, rfl⟩, rfl⟩ := hc
    exact ⟨v.1, Entry.visits_ne_nil e v hv, rfl⟩
  · simp [hd] at hc

theorem Entry.chains_depthFirst_aux :
    (∀ e : Entry, e.wf = true → DepthFirst (e.visits.map Prod.fst) ∧
      (e.visits.map Prod.fst).Nodup) ∧
    (∀ l : Bindings, (l.map Prod.fst).Nodup → Entry.wfRange l = true →
      DepthFirst ((Entry.visitsRange l).map Prod.fst) ∧
      ((Entry.visitsRange l).map Prod.fst).Nodup) := by
  have key := Entry.induction_entry
    (fun e => e.wf = true → DepthFirst (e.visits.map Prod.fst) ∧
      (e.visits.map Prod.fst).Nodup)
    (fun l => (l.map Prod.fst).Nodup → Entry.wfRange l = true →
      DepthFirst ((Entry.visitsRange l).map Prod.fst) ∧
      ((Entry.visitsRange l).map Prod.fst).Nodup)
  have key2 := Entry.induction_bindings
    (fun e => e.wf = true → DepthFirst (e.visits.map Prod.fst) ∧
      (e.visits.map Prod.fst).Nodup)
    (fun l => (l.map Prod.fst).Nodup → Entry.wfRange l = true →
      DepthFirst ((Entry.visitsRange l).map Prod.fst) ∧
      ((Entry.visitsRange l).map Prod.fst).Nodup)
  have h1 : ∀ t p, (Entry.mk t p none).wf = true →
      DepthFirst ((Entry.mk t p none).visits.map Prod.fst) ∧
      ((Entry.mk t p none).visits.map Prod.fst).Nodup := by
    intro t p _
    simp [Entry.visits, DepthFirst.nil]
  have h2 : ∀ t p (l : Bindings), ((l.map Prod.fst).Nodup → Entry.wfRange l = true →
      DepthFirst ((Entry.visitsRange l).map Prod.fst) ∧
      ((Entry.visitsRange l).map Prod.fst).Nodup) →
      (Entry.mk t p (some l)).wf = true →
      DepthFirst ((Entry.mk t p (some l)).visits.map Prod.fst) ∧
      ((Entry.mk t p (some l)).visits.map Prod.fst).Nodup := by
    intro t p l ih hwf
    rw [Entry.wf_some] at hwf
    simpa [Entry.visits] using ih hwf.1 hwf.2
  have h3 : (([] : Bindings).map Prod.fst).Nodup → Entry.wfRange [] = true →
      DepthFirst ((Entry.visitsRange []).map Prod.fst) ∧
      ((Entry.visitsRange []).map Prod.fst).Nodup := by
    intro _ _
    simp [Entry.visitsRange, DepthFirst.nil]
  have h4 : ∀ (n : String) (e : Entry) (rest : Bindings),
      (e.wf = true → DepthFirst (e.visits.map Prod.fst) ∧ (e.visits.map Prod.fst).Nodup) →
      ((rest.map Prod.fst).Nodup → Entry.wfRange rest = true →
        DepthFirst ((Entry.visitsRange rest).map Prod.fst) ∧
        ((Entry.visitsRange rest).map Prod.fst).Nodup) →
      ((((n, e) :: rest : Bindings).map Prod.fst).Nodup →
        Entry.wfRange ((n, e) :: rest) = true →
        DepthFirst ((Entry.visitsRange ((n, e) :: rest)).map Prod.fst) ∧
        ((Entry.visitsRange ((n, e) :: rest)).map Prod.fst).Nodup) := by
    intro n e rest ihe ihr hnd hwf
    rw [List.map_cons, List.nodup_cons] at hnd
    rw [Entry.wfRange_cons] at hwf
    obtain ⟨hde, hne⟩ := ihe hwf.1
    obtain ⟨hdr, hnr⟩ := ihr hnd.2 hwf.2
    rw [Entry.chainsRange_cons]
    have hchild := Entry.chains_child n e
    have hhead := Entry.chainsRange_head rest
    have hA : DepthFirst
        (if e.IsDir then (e.visits.map Prod.fst).map (fun c => n :: c) else []) := by
      by_cases hd : e.IsDir = true
      · simp only [hd, if_true]; exact DepthFirst.map_cons n _ hde
      · simp only [hd]; exact DepthFirst.nil
    have hAn : (if e.IsDir then (e.visits.map Prod.fst).map (fun c => n :: c)
        else []).Nodup := by
      by_cases hd : e.IsDir = true
      · simp only [hd, if_true]
        exact hne.map (fun a b hab => (List.cons.inj hab).2)
      · simp [hd]
    have hcross : ∀ x ∈ [n] :: (if e.IsDir then
        (e.visits.map Prod.fst).map (fun c => n :: c) else []),
        ∀ y ∈ (Entry.visitsRange rest).map Prod.fst, ¬ x <+: y ∧ ¬ y <+: x := by
      intro x hx y hy
      obtain ⟨m, tl, hm, rfl⟩ := hhead y hy
      have hmn : n ≠ m := fun h => hnd.1 (h ▸ hm)
      have hx2 : ∃ tl2, x = n :: tl2 := by
        rcases List.mem_cons.1 hx with rfl | hx
        · exact ⟨[], rfl⟩
        · obtain ⟨tl2, _, h⟩ := hchild x hx
          exact ⟨tl2, h⟩
      obtain ⟨tl2, rfl⟩ := hx2
      constructor
      · intro hp
        exact hmn ((cons_isPrefix_cons _ _ _ _).1 hp).1
      · intro hp
        exact hmn ((cons_isPrefix_cons _ _ _ _).1 hp).1.symm
    constructor
    · refine DepthFirst.append _ _ (DepthFirst.cons_parent _ _ hA ?_) hdr hcross
      intro x hx
      obtain ⟨tl, htl, rfl⟩ := hchild x hx
      constructor
      · exact (cons_isPrefix_cons _ _ _ _).2 ⟨rfl, List.nil_prefix⟩
      · intro hp
        have := ((cons_isPrefix_cons _ _ _ _).1 hp).2
        exact htl (List.prefix_nil.1 this)
    · rw [List.nodup_append]
      refine ⟨List.nodup_cons.2 ⟨?_, hAn⟩, hnr, ?_⟩
      · intro hmem
        obtain ⟨tl, htl, h⟩ := hchild _ hmem
        simp only [List.cons.injEq, true_and] at h
        exact htl h.symm
      · intro x hx hy
        have := (hcross x hx x hy).1
        exact this (List.prefix_refl x)
  exact ⟨key h1 h2 h3 h4, key2 h1 h2 h3 h4⟩


theorem Entry.reach_append (c : List String) : ∀ (e : Entry) (rest : List String),
    c ≠ [] → rest ≠ [] →
    e.reach (c ++ rest) =
      (e.reach c).bind (fun y => if y.IsDir then y.reach rest else none) := by
  induction c with
  | nil => intro e rest h; exact absurd rfl h
  | cons n c ih =>
    intro e rest _ hrest
    cases c with
    | nil =>
      obtain ⟨m, rest', rfl⟩ := List.exists_cons_of_ne_nil hrest
      simp only [List.singleton_append, Entry.reach]
      cases e.child n <;> rfl
    | cons m c =>
      simp only [List.cons_append, Entry.reach]
      cases e.child n with
      | none => rfl
      | some z =>
        by_cases hz : z.IsDir = true
        · simp only [hz, if_true]
          exact ih z rest (by simp) hrest
        · simp [hz]

theorem callEach_record_of_ok {σ ε : Type} (fn : WalkFunc σ ε)
    (hfn : ∀ p x s, (fn p x s).2 = none) (T : List (String × Entry)) :
    ∀ (s : σ) (log : List (Invocation ε)),
      callEach (record fn) T (s, log) =
        (((callEach fn T s).1, log ++ T.map (fun v => ⟨v.1, v.2, none⟩)), none) ∧
      (callEach fn T s).2 = none := by
  induction T with
  | nil => intro s log; simp [callEach]
  | cons v T ih =>
    obtain ⟨p, x⟩ := v
    intro s log
    have h := hfn p x s
    rcases hf : fn p x s with ⟨s1, r⟩
    rw [hf] at h
    simp only at h
    subst h
    simp only [callEach, record, hf]
    obtain ⟨h1, h2⟩ := ih s1 (log ++ [⟨p, x, none⟩])
    rw [h1, h2]
    simp

/-- C8: for a callback that never returns an error and a tree with unique keys,
`walk` returns no error and the calls of the callback correspond one to one to the
chains of names that lead from the starting entry through Directory entries to an
entry: the list of these chains has no duplicates, holds every such chain and
nothing else, and each call receives the entry at the end of its chain with the
path of the chain below `base`. Below an entry that is not a Directory no chain is
followed, so its children are not visited. -/
theorem C8_walk_visits_reachable {σ ε : Type} (join : String → String → String)
    (fn : WalkFunc σ ε) (hfn : ∀ p x s, (fn p x s).2 = none) (e : Entry)
    (hwf : e.wf = true) (base : String) (s : σ) :
    (e.walk join fn base s).2 = none ∧
    (∃ chains : List (List String), chains.Nodup ∧
      (∀ c, c ∈ chains ↔ (e.reach c).isSome = true) ∧
      List.Forall₂
        (fun i c => i.path = pathOf join base c ∧ e.reach c = some i.entry ∧ i.err = none)
        (invocations join fn e base s) chains) ∧
    (∀ c y rest, e.reach c = some y → y.type ≠ TypeDirectory → rest ≠ [] →
      e.reach (c ++ rest) = none) := by
  refine ⟨?_, ⟨e.visits.map Prod.fst, (Entry.chains_depthFirst_aux.1 e hwf).2, ?_, ?_⟩, ?_⟩
  · rw [Entry.walk_eq_callEach]
    exact (callEach_record_of_ok fn hfn _ s []).2
  · intro c
    constructor
    · intro hc
      obtain ⟨v, hv, rfl⟩ := List.mem_map.1 hc
      rw [(Entry.mem_visits_iff_reach v.1 e v.2 hwf).1 hv]
      rfl
    · intro hc
      obtain ⟨x, hx⟩ := Option.isSome_iff_exists.1 hc
      exact List.mem_map.2 ⟨(c, x), (Entry.mem_visits_iff_reach c e x hwf).2 hx, rfl⟩
  · unfold invocations
    rw [Entry.walk_eq_callEach, (callEach_record_of_ok fn hfn _ s []).1]
    simp only [List.nil_append, List.map_map]
    rw [List.forall₂_map_left_iff, List.forall₂_map_right_iff, List.forall₂_same]
    intro v hv
    exact ⟨rfl, (Entry.mem_visits_iff_reach v.1 e v.2 hwf).1 hv, rfl⟩
  · intro c y rest hy hnd hrest
    have hc : c ≠ [] := by
      rintro rfl
      simp [Entry.reach] at hy
    rw [Entry.reach_append c e rest hc hrest, hy]
    simp [Entry.IsDir, hnd]


/-- The log of a recorded run of `callEach`: the calls made are an initial part of
the list, none but the last one fails, and the run fails exactly when the last
call does. -/
theorem callEach_record {σ ε : Type} (fn : WalkFunc σ ε) (T : List (String × Entry)) :
    ∀ (s : σ) (log : List (Invocation ε)), ∃ new : List (Invocation ε),
      callEach (record fn) T (s, log) =
        (((callEach fn T s).1, log ++ new), (callEach fn T s).2) ∧
      new.map (fun i => (i.path, i.entry)) = T.take new.length ∧
      ((callEach fn T s).2 = none → new.length = T.length ∧ ∀ i ∈ new, i.err = none) ∧
      (∀ err, (callEach fn T s).2 = some err →
        ∃ init last, new = init ++ [last] ∧ last.err = some err ∧
          ∀ i ∈ init, i.err = none) := by
  induction T with
  | nil =>
    intro s log
    exact ⟨[], by simp [callEach], rfl, fun _ => ⟨rfl, by simp⟩, by simp [callEach]⟩
  | cons v T ih =>
    obtain ⟨p, x⟩ := v
    intro s log
    rcases hf : fn p x s with ⟨s1, _ | err⟩
    · obtain ⟨new, h1, h2, h3, h4⟩ := ih s1 (log ++ [⟨p, x, none⟩])
      refine ⟨⟨p, x, none⟩ :: new, ?_, ?_, ?_, ?_⟩
      · simp only [callEach, record, hf, h1]
        simp
      · simp only [List.map_cons, List.length_cons, List.take_succ_cons, h2]
      · simp only [callEach, hf]
        intro hr
        obtain ⟨hl, hall⟩ := h3 hr
        refine ⟨by simp [hl], ?_⟩
        intro i hi
        rcases List.mem_cons.1 hi with rfl | hi
        · rfl
        · exact hall i hi
      · simp only [callEach, hf]
        intro err hr
        obtain ⟨init, last, hnew, hlast, hinit⟩ := h4 err hr
        refine ⟨⟨p, x, none⟩ :: init, last, by simp [hnew], hlast, ?_⟩
        intro i hi
        rcases List.mem_cons.1 hi with rfl | hi
        · rfl
        · exact hinit i hi
    · refine ⟨[⟨p, x, some err⟩], ?_, ?_, ?_, ?_⟩
      · simp only [callEach, record, hf]
      · simp
      · simp [callEach, hf]
      · simp only [callEach, hf]
        intro err2 hr
        simp only [Option.some.injEq] at hr
        subst hr
        exact ⟨[], ⟨p, x, some err⟩, rfl, rfl, by simp⟩

/-- Recording the calls does not change what `walk` does: the state of the
callback and the returned error are those of the run without the log. -/
theorem Entry.walk_record {σ ε : Type} (join : String → String → String) (fn : WalkFunc σ ε)
    (e : Entry) (base : String) (s : σ) (log : List (Invocation ε)) :
    ((e.walk join (record fn) base (s, log)).1.1, (e.walk join (record fn) base (s, log)).2) =
      e.walk join fn base s := by
  obtain ⟨new, h1, _⟩ :=
    callEach_record fn (e.visits.map (fun v => (pathOf join base v.1, v.2))) s log
  rw [Entry.walk_eq_callEach, Entry.walk_eq_callEach, h1]

/-- The calls of the callback are an initial part of the visits. -/
theorem invocations_spec {σ ε : Type} (join : String → String → String) (fn : WalkFunc σ ε)
    (e : Entry) (base : String) (s : σ) :
    (invocations join fn e base s).map (fun i => (i.path, i.entry)) =
      (e.visits.map (fun v => (pathOf join base v.1, v.2))).take
        (invocations join fn e base s).length ∧
    ((e.walk join fn base s).2 = none →
      (invocations join fn e base s).length = e.visits.length ∧
      ∀ i ∈ invocations join fn e base s, i.err = none) ∧
    (∀ err, (e.walk join fn base s).2 = some err →
      ∃ init last, invocations join fn e base s = init ++ [last] ∧ last.err = some err ∧
        ∀ i ∈ init, i.err = none) := by
  obtain ⟨new, h1, h2, h3, h4⟩ :=
    callEach_record fn (e.visits.map (fun v => (pathOf join base v.1, v.2))) s []
  have hinv : invocations join fn e base s = new := by
    unfold invocations
    rw [Entry.walk_eq_callEach, h1]
    simp
  rw [hinv, Entry.walk_eq_callEach]
  refine ⟨h2, ?_, h4⟩
  intro hr
  have := h3 hr
  simpa using this

theorem Entry.reach_parent (e : Entry) (c : List String) (n : String) (hc : c ≠ [])
    (h : (e.reach (c ++ [n])).isSome = true) : (e.reach c).isSome = true := by
  rw [Entry.reach_append c e [n] hc (by simp)] at h
  cases hr : e.reach c with
  | none => simp [hr] at h
  | some y => rfl


theorem forall₂_of_map_eq {α β γ : Type} (g : α → γ) (h : β → γ) (P : β → Prop)
    (l1 : List α) : ∀ (l2 : List β), (∀ b ∈ l2, P b) → l1.map g = l2.map h →
    List.Forall₂ (fun a b => g a = h b ∧ P b) l1 l2 := by
  induction l1 with
  | nil =>
    intro l2 _ heq
    cases l2 with
    | nil => exact List.Forall₂.nil
    | cons b l2 => simp at heq
  | cons a l1 ih =>
    intro l2 hP heq
    cases l2 with
    | nil => simp at heq
    | cons b l2 =>
      simp only [List.map_cons, List.cons.injEq] at heq
      exact List.Forall₂.cons ⟨heq.1, hP b (List.mem_cons_self _ _)⟩
        (ih l2 (fun b' hb' => hP b' (List.mem_cons_of_mem _ hb')) heq.2)

/-- The calls of the callback follow the chains of the visits. -/
theorem invocations_chains {σ ε : Type} (join : String → String → String)
    (fn : WalkFunc σ ε) (e : Entry) (hwf : e.wf = true) (base : String) (s : σ) :
    List.Forall₂ (fun i c => i.path = pathOf join base c ∧ e.reach c = some i.entry)
      (invocations join fn e base s)
      ((e.visits.map Prod.fst).take (invocations join fn e base s).length) := by
  have h := (invocations_spec join fn e base s).1
  rw [← List.map_take] at h
  have h2 := forall₂_of_map_eq (fun i : Invocation ε => (i.path, i.entry))
    (fun v : List String × Entry => (pathOf join base v.1, v.2))
    (fun v => e.reach v.1 = some v.2) _ _
    (fun v hv => (Entry.mem_visits_iff_reach v.1 e v.2 hwf).1 (List.mem_of_mem_take hv)) h
  rw [← List.map_take, List.forall₂_map_right_iff]
  refine h2.imp ?_
  rintro i v ⟨heq, hr⟩
  simp only [Prod.mk.injEq] at heq
  exact ⟨heq.1, by rw [heq.2]; exact hr⟩

theorem Entry.mem_chains_iff (e : Entry) (hwf : e.wf = true) (c : List String) :
    c ∈ e.visits.map Prod.fst ↔ (e.reach c).isSome = true := by
  constructor
  · intro hc
    obtain ⟨v, hv, rfl⟩ := List.mem_map.1 hc
    rw [(Entry.mem_visits_iff_reach v.1 e v.2 hwf).1 hv]
    rfl
  · intro hc
    obtain ⟨x, hx⟩ := Option.isSome_iff_exists.1 hc
    exact List.mem_map.2 ⟨(c, x), (Entry.mem_visits_iff_reach c e x hwf).2 hx, rfl⟩

/-- C9: the calls of the callback follow, in order, an initial part (all of it when
`walk` returns no error) of a list of the chains of names that lead through
Directory entries to an entry; this list is in depth-first order, that is, the
chains below a chain come right after it as one block, before any other chain,
and so the chain of a parent directory comes before the chain of each of its
children. This holds for every entry with unique keys, whatever the order of its
bindings. -/
theorem C9_walk_parent_first_depth_first {σ ε : Type} (join : String → String → String)
    (fn : WalkFunc σ ε) (e : Entry) (hwf : e.wf = true) (base : String) (s : σ) :
    ∃ chains : List (List String),
      (chains.Nodup ∧ ∀ c, c ∈ chains ↔ (e.reach c).isSome = true) ∧
      List.Forall₂ (fun i c => i.path = pathOf join base c ∧ e.reach c = some i.entry)
        (invocations join fn e base s)
        (chains.take (invocations join fn e base s).length) ∧
      ((e.walk join fn base s).2 = none →
        (invocations join fn e base s).length = chains.length) ∧
      DepthFirst chains ∧
      (∀ c n, c ≠ [] → c ++ [n] ∈ chains →
        ∃ front between back, chains = front ++ c :: between ++ (c ++ [n]) :: back) := by
  obtain ⟨hdf, hnd⟩ := Entry.chains_depthFirst_aux.1 e hwf
  refine ⟨e.visits.map Prod.fst, ⟨hnd, Entry.mem_chains_iff e hwf⟩,
    invocations_chains join fn e hwf base s, ?_, hdf, ?_⟩
  · intro hr
    rw [((invocations_spec join fn e base s).2.1 hr).1, List.length_map]
  · intro c n hc hmem
    have hpar : c ∈ e.visits.map Prod.fst :=
      (Entry.mem_chains_iff e hwf c).2
        (Entry.reach_parent e c n hc ((Entry.mem_chains_iff e hwf _).1 hmem))
    obtain ⟨front, block, back, heq, hbl, hfb⟩ := hdf c hpar
    have hblock : c ++ [n] ∈ block := by
      rw [heq] at hmem
      simp only [List.append_assoc, List.cons_append, List.mem_append, List.mem_cons] at hmem
      rcases hmem with h | h | h | h
      · exact absurd (List.prefix_append c [n]) (hfb _ (List.mem_append_left _ h))
      · have := congrArg List.length h
        simp at this
      · exact h
      · exact absurd (List.prefix_append c [n]) (hfb _ (List.mem_append_right _ h))
    obtain ⟨b1, b2, hb⟩ := List.append_of_mem hblock
    refine ⟨front, b1, b2 ++ back, ?_⟩
    rw [heq, hb]
    simp


/-- Witness of C8: the walk over the sample tree with a callback that counts its
calls; the child "hidden" of the regular file "init" is not visited. -/
theorem C8_walk_visits_reachable_witness :
    ((∀ p x s, (countCalls p x s).2 = none) ∧ sampleTree.wf = true) ∧
    ((sampleTree.walk slashJoin countCalls "" 0).2 = none ∧
    (∃ chains : List (List String), chains.Nodup ∧
      (∀ c, c ∈ chains ↔ (sampleTree.reach c).isSome = true) ∧
      List.Forall₂
        (fun i c => i.path = pathOf slashJoin "" c ∧ sampleTree.reach c = some i.entry ∧
          i.err = none)
        (invocations slashJoin countCalls sampleTree "" 0) chains) ∧
    (∀ c y rest, sampleTree.reach c = some y → y.type ≠ TypeDirectory → rest ≠ [] →
      sampleTree.reach (c ++ rest) = none)) ∧
    (invocations slashJoin countCalls sampleTree "" 0).map (fun i => i.path) =
      ["/bin", "/bin/sh", "/bin/sub", "/bin/sub/x", "/init", "/lib"] :=
  ⟨⟨fun _ _ _ => rfl, rfl⟩,
    C8_walk_visits_reachable slashJoin countCalls (fun _ _ _ => rfl) sampleTree rfl "" 0,
    rfl⟩

/-- Witness of C9: the walk over the sample tree with a callback that fails on the
first link it is called on. -/
theorem C9_walk_parent_first_depth_first_witness :
    sampleTree.wf = true ∧
    (∃ chains : List (List String),
      (chains.Nodup ∧ ∀ c, c ∈ chains ↔ (sampleTree.reach c).isSome = true) ∧
      List.Forall₂
        (fun i c => i.path = pathOf slashJoin "" c ∧ sampleTree.reach c = some i.entry)
        (invocations slashJoin failOnLink sampleTree "" 0)
        (chains.take (invocations slashJoin failOnLink sampleTree "" 0).length) ∧
      ((sampleTree.walk slashJoin failOnLink "" 0).2 = none →
        (invocations slashJoin failOnLink sampleTree "" 0).length = chains.length) ∧
      DepthFirst chains ∧
      (∀ c n, c ≠ [] → c ++ [n] ∈ chains →
        ∃ front between back, chains = front ++ c :: between ++ (c ++ [n]) :: back)) ∧
    (invocations slashJoin failOnLink sampleTree "" 0).map (fun i => i.path) =
      ["/bin", "/bin/sh", "/bin/sub", "/bin/sub/x"] :=
  ⟨rfl, C9_walk_parent_first_depth_first slashJoin failOnLink sampleTree rfl "" 0, rfl⟩


/-! ## Errors during the traversal -/

/-- One call of the serialization callback with a recorded writer: it makes at
most one call of the writer, and then returns that call's error, wrapped. -/
theorem writeEntry_recordWriter {ω ε : Type} (openSource : String → Option ε)
    (w : Writer ω ε) (p : String) (x : Entry) (s : ω) (log : List (WriterCall ε)) :
    ∃ new : List (WriterCall ε),
      writeEntry openSource (recordWriter w) p x (s, log) =
        (((writeEntry openSource w p x s).1, log ++ new), (writeEntry openSource w p x s).2) ∧
      (new = [] ∨ ∃ call, new = [call] ∧
        (writeEntry openSource w p x s).2 = call.err.map WriteError.writerFailure) := by
  unfold writeEntry
  by_cases h1 : x.type = TypeDirectory
  · simp only [if_pos h1]
    exact ⟨[⟨p, (w.WriteDirectory p s).2⟩], rfl, Or.inr ⟨_, rfl, rfl⟩⟩
  · by_cases h2 : x.type = TypeLink
    · simp only [if_neg h1, if_pos h2]
      exact ⟨[⟨p, (w.WriteLink p x.relatedPath s).2⟩], rfl, Or.inr ⟨_, rfl, rfl⟩⟩
    · by_cases h3 : x.type = TypeRegular
      · simp only [if_neg h1, if_neg h2, if_pos h3]
        cases openSource x.relatedPath with
        | some cause => exact ⟨[], by simp, Or.inl rfl⟩
        | none =>
          exact ⟨[⟨p, (w.WriteRegular p x.relatedPath 0o755 s).2⟩], rfl, Or.inr ⟨_, rfl, rfl⟩⟩
      · simp only [if_neg h1, if_neg h2, if_neg h3]
        exact ⟨[], by simp, Or.inl rfl⟩

theorem callEach_recordWriter {ω ε : Type} (openSource : String → Option ε)
    (w : Writer ω ε) (T : List (String × Entry)) :
    ∀ (s : ω) (log : List (WriterCall ε)), ∃ new : List (WriterCall ε),
      callEach (writeEntry openSource (recordWriter w)) T (s, log) =
        (((callEach (writeEntry openSource w) T s).1, log ++ new),
          (callEach (writeEntry openSource w) T s).2) ∧
      (∀ call ∈ new, ∀ cause, call.err = some cause →
        (callEach (writeEntry openSource w) T s).2 =
          some (WriteError.writerFailure cause)) := by
  induction T with
  | nil => intro s log; exact ⟨[], by simp [callEach], by simp⟩
  | cons v T ih =>
    obtain ⟨p, x⟩ := v
    intro s log
    obtain ⟨new0, h0, hnew0⟩ := writeEntry_recordWriter openSource w p x s log
    rcases hf : writeEntry openSource w p x s with ⟨s1, _ | err⟩
    · rw [hf] at h0 hnew0
      obtain ⟨new1, h1, hnew1⟩ := ih s1 (log ++ new0)
      refine ⟨new0 ++ new1, ?_, ?_⟩
      · simp only [callEach, h0, hf, h1, List.append_assoc]
      · intro call hcall cause hcause
        simp only [callEach, hf]
        rcases List.mem_append.1 hcall with hc | hc
        · rcases hnew0 with rfl | ⟨call0, rfl, hr⟩
          · simp at hc
          · simp only [List.mem_singleton] at hc
            subst hc
            simp [hcause] at hr
        · exact hnew1 call hc cause hcause
    · rw [hf] at h0 hnew0
      refine ⟨new0, ?_, ?_⟩
      · simp only [callEach, h0, hf]
      · intro call hcall cause hcause
        simp only [callEach, hf]
        rcases hnew0 with rfl | ⟨call0, rfl, hr⟩
        · simp at hcall
        · simp only [List.mem_singleton] at hcall
          subst hcall
          simpa [hcause] using hr

theorem last_of_append_eq {α : Type} (init front back : List α) (last i : α)
    (h : init ++ [last] = front ++ i :: back) (hnot : i ∉ init) : back = [] ∧ i = last := by
  rcases List.eq_nil_or_concat back with rfl | ⟨b, y, rfl⟩
  · have := List.append_inj' h rfl
    simp only [List.cons.injEq, and_true] at this
    exact ⟨rfl, this.2.symm⟩
  · have h2 : init ++ [last] = (front ++ i :: b) ++ [y] := by
      rw [h]; simp
    have := (List.append_inj' h2 rfl).1
    exact absurd (by rw [this]; simp) hnot

/-- C10: when a call of the callback returns an error, it is the last call and
`walk` returns exactly that error; `walk` returns an error only in this way; the
calls made are an initial part of the calls of a traversal whose callback never
fails. A serialization in which a call of the writer fails returns that error
(`writeTo` and its callback are modelled from the spec). -/
theorem C10_walk_stops_at_first_error {σ ε : Type} (join : String → String → String)
    (fn : WalkFunc σ ε) (e : Entry) (base : String) (s : σ) :
    (∀ front i back err, invocations join fn e base s = front ++ i :: back →
      i.err = some err → back = [] ∧ (e.walk join fn base s).2 = some err) ∧
    (∀ err, (e.walk join fn base s).2 = some err →
      ∃ front last, invocations join fn e base s = front ++ [last] ∧ last.err = some err) ∧
    (∀ (τ : Type) (g : WalkFunc τ ε) (t : τ), (∀ p x u, (g p x u).2 = none) →
      (invocations join fn e base s).map (fun i => (i.path, i.entry)) <+:
        (invocations join g e base t).map (fun i => (i.path, i.entry))) ∧
    (∀ (ω κ : Type) (openSource : String → Option κ) (w : Writer ω κ) (root : Entry) (t : ω)
      (call : WriterCall κ) (cause : κ),
      call ∈ writerCalls join openSource w root t → call.err = some cause →
      (writeTo join openSource w root t).2 = some (WriteError.writerFailure cause)) := by
  obtain ⟨hpre, hok, hfail⟩ := invocations_spec join fn e base s
  refine ⟨?_, ?_, ?_, ?_⟩
  · intro front i back err hlog hi
    cases hr : (e.walk join fn base s).2 with
    | none =>
      have := (hok hr).2 i (by rw [hlog]; simp)
      rw [hi] at this
      exact absurd this (by simp)
    | some err2 =>
      obtain ⟨init, last, hl, hlast, hinit⟩ := hfail err2 hr
      rw [hl] at hlog
      have hnot : i ∉ init := fun hmem => by
        have := hinit i hmem
        rw [hi] at this
        exact absurd this (by simp)
      obtain ⟨hback, hil⟩ := last_of_append_eq init front back last i hlog hnot
      rw [← hil, hi] at hlast
      exact ⟨hback, by rw [hlast]⟩
  · intro err hr
    obtain ⟨init, last, hl, hlast, _⟩ := hfail err hr
    exact ⟨init, last, hl, hlast⟩
  · intro τ g t hg
    have hfull : (invocations join g e base t).map (fun i => (i.path, i.entry)) =
        e.visits.map (fun v => (pathOf join base v.1, v.2)) := by
      unfold invocations
      rw [Entry.walk_eq_callEach, (callEach_record_of_ok g hg _ t []).1]
      simp [Function.comp_def]
    rw [hpre, hfull]
    exact List.take_prefix _ _
  · intro ω κ openSource w root t call cause hcall hcause
    obtain ⟨new, h1, h2⟩ := callEach_recordWriter openSource w
      (root.visits.map (fun v => (pathOf join "/" v.1, v.2))) t []
    unfold writerCalls writeTo at hcall
    rw [Entry.walk_eq_callEach, h1] at hcall
    unfold writeTo
    rw [Entry.walk_eq_callEach]
    exact h2 call (by simpa using hcall) cause hcause

/-- Witness of C10: on the sample tree a callback that fails on links is called
four times, the last call being the failing one, and `walk` returns its error; a
serialization whose writer fails on the entry "init" returns the writer's error. -/
theorem C10_walk_stops_at_first_error_witness :
    ((invocations slashJoin failOnLink sampleTree "" 0).map (fun i => (i.path, i.err)) =
      [("/bin", none), ("/bin/sh", none), ("/bin/sub", none),
        ("/bin/sub/x", some "link /bin/sub/x")] ∧
    (sampleTree.walk slashJoin failOnLink "" 0).2 = some "link /bin/sub/x") ∧
    (writeTo slashJoin (fun _ => none) (mockWriter (some "assert.AnError"))
      (Entry.mk TypeDirectory "" (some [("init", sampleLink)])) ()).2 =
        some (WriteError.writerFailure "assert.AnError") :=
  ⟨⟨rfl,
    ((C10_walk_stops_at_first_error slashJoin failOnLink sampleTree "" 0).1
      [⟨"/bin", Entry.mk TypeDirectory "" (some [
          ("sh", Entry.mk TypeRegular "/bin/sh" none),
          ("sub", Entry.mk TypeDirectory "" (some [("x", Entry.mk TypeLink "/y" none)]))]),
          none⟩,
        ⟨"/bin/sh", Entry.mk TypeRegular "/bin/sh" none, none⟩,
        ⟨"/bin/sub", Entry.mk TypeDirectory "" (some [("x", Entry.mk TypeLink "/y" none)]),
          none⟩]
      ⟨"/bin/sub/x", Entry.mk TypeLink "/y" none, some "link /bin/sub/x"⟩ []
      "link /bin/sub/x" rfl rfl).2⟩,
    (C10_walk_stops_at_first_error slashJoin failOnLink sampleTree "" 0).2.2.2
      Unit String (fun _ => none) (mockWriter (some "assert.AnError"))
      (Entry.mk TypeDirectory "" (some [("init", sampleLink)])) ()
      ⟨"//init", some "assert.AnError"⟩ "assert.AnError" (List.mem_singleton.2 rfl) rfl⟩

/-! ## The type predicates -/

/-- C19: each type predicate holds exactly when `Type` is its constant; no two of
them hold of the same entry; one of them holds when `Type` is one of the three
constants, and none holds for any other value of `Type`. -/
theorem C19_type_predicates (e : Entry) :
    ((e.IsRegular = true ↔ e.type = TypeRegular) ∧
      (e.IsDir = true ↔ e.type = TypeDirectory) ∧
      (e.IsLink = true ↔ e.type = TypeLink)) ∧
    (¬ (e.IsRegular = true ∧ e.IsDir = true) ∧
      ¬ (e.IsRegular = true ∧ e.IsLink = true) ∧
      ¬ (e.IsDir = true ∧ e.IsLink = true)) ∧
    (e.type = TypeRegular ∨ e.type = TypeDirectory ∨ e.type = TypeLink →
      e.IsRegular = true ∨ e.IsDir = true ∨ e.IsLink = true) ∧
    (e.type ≠ TypeRegular ∧ e.type ≠ TypeDirectory ∧ e.type ≠ TypeLink →
      e.IsRegular = false ∧ e.IsDir = false ∧ e.IsLink = false) := by
  have h1 : TypeRegular ≠ TypeDirectory := by decide
  have h2 : TypeRegular ≠ TypeLink := by decide
  have h3 : TypeDirectory ≠ TypeLink := by decide
  have hr : e.IsRegular = true ↔ e.type = TypeRegular := by simp [Entry.IsRegular]
  have hd : e.IsDir = true ↔ e.type = TypeDirectory := by simp [Entry.IsDir]
  have hl : e.IsLink = true ↔ e.type = TypeLink := by simp [Entry.IsLink]
  refine ⟨⟨hr, hd, hl⟩, ⟨?_, ?_, ?_⟩, ?_, ?_⟩
  · rintro ⟨ha, hb⟩; exact h1 ((hr.1 ha).symm.trans (hd.1 hb))
  · rintro ⟨ha, hb⟩; exact h2 ((hr.1 ha).symm.trans (hl.1 hb))
  · rintro ⟨ha, hb⟩; exact h3 ((hd.1 ha).symm.trans (hl.1 hb))
  · rintro (h | h | h)
    · exact Or.inl (hr.2 h)
    · exact Or.inr (Or.inl (hd.2 h))
    · exact Or.inr (Or.inr (hl.2 h))
  · rintro ⟨ha, hb, hc⟩
    refine ⟨?_, ?_, ?_⟩
    · exact Bool.eq_false_iff.2 (fun h => ha (hr.1 h))
    · exact Bool.eq_false_iff.2 (fun h => hb (hd.1 h))
    · exact Bool.eq_false_iff.2 (fun h => hc (hl.1 h))

/-- Witness of C19: the predicates on the three entries of the tests and on an
entry of type 99. -/
theorem C19_type_predicates_witness :
    (fileEntry.IsRegular = true ∧ fileEntry.IsDir = false ∧ fileEntry.IsLink = false) ∧
    (dirEntry.IsRegular = false ∧ dirEntry.IsDir = true ∧ dirEntry.IsLink = false) ∧
    (linkEntry.IsRegular = false ∧ linkEntry.IsDir = false ∧ linkEntry.IsLink = true) ∧
    ((Entry.mk ⟨99⟩ "" none).IsRegular = false ∧ (Entry.mk ⟨99⟩ "" none).IsDir = false ∧
      (Entry.mk ⟨99⟩ "" none).IsLink = false) :=
  ⟨⟨((C19_type_predicates fileEntry).1.1).2 rfl, rfl, rfl⟩, ⟨rfl, rfl, rfl⟩, ⟨rfl, rfl, rfl⟩,
    (C19_type_predicates (Entry.mk ⟨99⟩ "" none)).2.2.2 ⟨by decide, by decide, by decide⟩⟩

/-! ## Entries behind pointers: insertion -/

theorem Heap.mapGet_cons (k : String) (v : Ptr) (rest : List (String × Ptr))
    (name : String) :
    Heap.mapGet ((k, v) :: rest) name = if k = name then some v else Heap.mapGet rest name := by
  unfold Heap.mapGet
  rw [List.lookup_cons]
  by_cases h : k = name
  · subst h; simp
  · have h2 : (name == k) = false := by
      simpa using fun h3 => h h3.symm
    simp [h, h2]

theorem Heap.mapSet_of_mapGet_none (l : List (String × Ptr)) (name : String) (x : Ptr)
    (h : Heap.mapGet l name = none) : Heap.mapSet l name x = l ++ [(name, x)] := by
  induction l with
  | nil => rfl
  | cons kv rest ih =>
    obtain ⟨k, v⟩ := kv
    rw [Heap.mapGet_cons] at h
    by_cases hk : k = name
    · simp [hk] at h
    · simp only [hk, if_false] at h
      simp [Heap.mapSet, hk, ih h]

/-- The bindings of a node; a `nil` map has none. -/
theorem Heap.child_eq (node : Node) (name : String) :
    Heap.child node name = Heap.mapGet (node.children.getD []) name := by
  unfold Heap.child
  cases node.children <;> rfl

/-- The three outcomes of `AddEntry` on an allocated receiver. -/
theorem Heap.AddEntry_eq (h : Heap) (e : Ptr) (name : String) (x : Ptr) (node : Node)
    (hn : h[e]? = some node) :
    Heap.AddEntry h e name x =
      if node.type ≠ TypeDirectory then some ⟨h, none, some ErrEntryNotDir⟩
      else match Heap.child node name with
        | some ee => some ⟨h, some ee, some ErrEntryExists⟩
        | none =>
          some ⟨h.set e { node with children := some (node.children.getD [] ++ [(name, x)]) },
            some x, none⟩ := by
  unfold Heap.AddEntry
  simp only [hn]
  by_cases ht : node.type = TypeDirectory
  · simp only [ht, ne_eq, not_true_eq_false, if_false]
    cases hc : Heap.child node name with
    | some ee => rfl
    | none =>
      simp only
      have hm : (match node.children with | none => [] | some l => l) =
          node.children.getD [] := by
        cases node.children <;> rfl
      rw [hm, Heap.mapSet_of_mapGet_none _ name x (by rw [← Heap.child_eq]; exact hc)]
  · simp [ht]

/-- A call of `AddEntry` that returns no error has written the new binding into
the receiver and nothing else. -/
theorem Heap.AddEntry_success (h : Heap) (e : Ptr) (name : String) (x : Ptr)
    (r : PtrResult) (hr : Heap.AddEntry h e name x = some r) (herr : r.err = none) :
    ∃ node, h[e]? = some node ∧ node.type = TypeDirectory ∧ Heap.child node name = none ∧
      r = ⟨h.set e { node with children := some (node.children.getD [] ++ [(name, x)]) },
        some x, none⟩ := by
  cases hn : h[e]? with
  | none => simp [Heap.AddEntry, hn] at hr
  | some node =>
    rw [Heap.AddEntry_eq h e name x node hn] at hr
    by_cases ht : node.type = TypeDirectory
    · rw [if_neg (not_not.2 ht)] at hr
      cases hc : Heap.child node name with
      | some ee =>
        simp only [hc, Option.some.injEq] at hr
        subst hr
        simp at herr
      | none =>
        simp only [hc, Option.some.injEq] at hr
        exact ⟨node, rfl, ht, hc, hr.symm⟩
    · rw [if_pos ht] at hr
      simp only [Option.some.injEq] at hr
      subst hr
      simp at herr

/-- A call of `AddEntry` that returns an error has not written to memory. -/
theorem Heap.AddEntry_failure (h : Heap) (e : Ptr) (name : String) (x : Ptr)
    (r : PtrResult) (hr : Heap.AddEntry h e name x = some r) (herr : r.err ≠ none) :
    r.heap = h := by
  cases hn : h[e]? with
  | none => simp [Heap.AddEntry, hn] at hr
  | some node =>
    rw [Heap.AddEntry_eq h e name x node hn] at hr
    by_cases ht : node.type = TypeDirectory
    · rw [if_neg (not_not.2 ht)] at hr
      cases hc : Heap.child node name with
      | some ee =>
        simp only [hc, Option.some.injEq] at hr
        subst hr; rfl
      | none =>
        simp only [hc, Option.some.injEq] at hr
        subst hr
        simp at herr
    · rw [if_pos ht] at hr
      simp only [Option.some.injEq] at hr
      subst hr; rfl

theorem Heap.getElem?_new (h : Heap) (t : FileType) (p : String) (q : Nat) :
    (Heap.new h t p).1[q]? =
      if q < h.length then h[q]? else if q = h.length then some ⟨t, p, none⟩ else none := by
  unfold Heap.new
  by_cases h1 : q < h.length
  · simp [h1, List.getElem?_append_left h1]
  · by_cases h2 : q = h.length
    · subst h2
      simp
    · have h3 : h.length + 1 ≤ q := by omega
      simp only [h1, h2, if_false]
      exact List.getElem?_eq_none (by simp; omega)

theorem Heap.getElem?_set_node (h : Heap) (e : Nat) (node node1 : Node)
    (hn : h[e]? = some node) (q : Nat) :
    (h.set e node1)[q]? = if q = e then some node1 else h[q]? := by
  have he : e < h.length := by
    by_contra hlt
    rw [List.getElem?_eq_none (by omega)] at hn
    simp at hn
  by_cases hq : q = e
  · subst hq
    simp [he]
  · simp [hq, List.getElem?_set_ne (Ne.symm hq)]

theorem Heap.Descendant.trans {h : Heap} {p q r : Ptr} (h1 : Heap.Descendant h p q)
    (h2 : Heap.Descendant h q r) : Heap.Descendant h p r := by
  induction h1 with
  | direct n hst => exact Heap.Descendant.through n hst h2
  | through n hst _ ih => exact Heap.Descendant.through n hst (ih h2)

theorem Entry.onlyDirsOwnRange_set (l : Bindings) (n : String) (x : Entry)
    (hl : Entry.onlyDirsOwnRange l = true) (hx : x.onlyDirsOwn = true) :
    Entry.onlyDirsOwnRange (l.set n x) = true := by
  induction l with
  | nil => simp [Bindings.set, Entry.onlyDirsOwnRange, hx]
  | cons kv rest ih =>
    obtain ⟨k, v⟩ := kv
    simp only [Entry.onlyDirsOwnRange, Bool.and_eq_true] at hl
    by_cases hk : k = n
    · simp [Bindings.set, hk, Entry.onlyDirsOwnRange, hx, hl.2]
    · simp [Bindings.set, hk, Entry.onlyDirsOwnRange, hl.1, ih hl.2]

theorem Entry.onlyDirsOwn_AddEntry (e : Entry) (n : String) (x : Entry)
    (he : e.onlyDirsOwn = true) (hx : x.onlyDirsOwn = true) :
    (e.AddEntry n x).receiver.onlyDirsOwn = true := by
  by_cases hd : e.IsDir = true
  · cases hc : e.child n with
    | some ee => rw [Entry.AddEntry_of_child e n x ee hd hc]; exact he
    | none =>
      rw [Entry.AddEntry_of_new e n x hd hc]
      have ht : e.type = TypeDirectory := by simpa [Entry.IsDir] using hd
      have hl : Entry.onlyDirsOwnRange (e.children.getD []) = true := by
        rcases e with ⟨t, p, _ | l⟩
        · rfl
        · simp only [Entry.onlyDirsOwn, Bool.and_eq_true] at he
          exact he.2
      simp only [Entry.onlyDirsOwn, ht, decide_True, Bool.or_true, Bool.true_and]
      exact Entry.onlyDirsOwnRange_set _ n x hl hx
  · rw [Entry.AddEntry_of_not_dir e n x (by simpa using hd)]
    exact he

theorem Heap.onlyDirsOwn_new (h : Heap) (t : FileType) (p : String)
    (hinv : Heap.OnlyDirsOwn h) : Heap.OnlyDirsOwn (Heap.new h t p).1 := by
  intro q node l hnode hl hne
  rw [Heap.getElem?_new] at hnode
  by_cases h1 : q < h.length
  · simp only [h1, if_true] at hnode
    exact hinv q node l hnode hl hne
  · simp only [h1, if_false] at hnode
    by_cases h2 : q = h.length
    · simp only [h2, if_true, Option.some.injEq] at hnode
      subst hnode
      simp at hl
    · simp [h2] at hnode

theorem Heap.onlyDirsOwn_of_AddEntry (h : Heap) (e : Nat) (name : String) (x : Nat)
    (r : PtrResult) (hr : Heap.AddEntry h e name x = some r) (hinv : Heap.OnlyDirsOwn h) :
    Heap.OnlyDirsOwn r.heap := by
  by_cases herr : r.err = none
  · obtain ⟨node, hn, ht, _, hreq⟩ := Heap.AddEntry_success h e name x r hr herr
    rw [hreq]
    intro q node1 l hnode hl hne
    rw [Heap.getElem?_set_node h e node _ hn] at hnode
    by_cases hq : q = e
    · simp only [hq, if_true, Option.some.injEq] at hnode
      subst hnode
      exact ht
    · simp only [hq, if_false] at hnode
      exact hinv q node1 l hnode hl hne
  · rw [Heap.AddEntry_failure h e name x r hr herr]
    exact hinv

theorem HeapOp.apply_onlyDirsOwn (h h1 : Heap) (op : HeapOp) (hinv : Heap.OnlyDirsOwn h)
    (hap : op.apply h = some h1) : Heap.OnlyDirsOwn h1 := by
  cases op with
  | addFile e name p =>
    simp only [HeapOp.apply, Heap.AddFile] at hap
    cases hn : h[e]? with
    | none => simp [hn] at hap
    | some node =>
      simp only [hn, Option.map_eq_some'] at hap
      obtain ⟨r, hr, rfl⟩ := hap
      exact Heap.onlyDirsOwn_of_AddEntry _ e name _ r hr (Heap.onlyDirsOwn_new h _ _ hinv)
  | addDirectory e name =>
    simp only [HeapOp.apply, Heap.AddDirectory] at hap
    cases hn : h[e]? with
    | none => simp [hn] at hap
    | some node =>
      simp only [hn, Option.map_eq_some'] at hap
      obtain ⟨r, hr, rfl⟩ := hap
      exact Heap.onlyDirsOwn_of_AddEntry _ e name _ r hr (Heap.onlyDirsOwn_new h _ _ hinv)
  | addLink e name p =>
    simp only [HeapOp.apply, Heap.AddLink] at hap
    cases hn : h[e]? with
    | none => simp [hn] at hap
    | some node =>
      simp only [hn, Option.map_eq_some'] at hap
      obtain ⟨r, hr, rfl⟩ := hap
      exact Heap.onlyDirsOwn_of_AddEntry _ e name _ r hr (Heap.onlyDirsOwn_new h _ _ hinv)
  | addEntry e name x =>
    simp only [HeapOp.apply] at hap
    split at hap
    · simp only [Option.map_eq_some'] at hap
      obtain ⟨r, hr, rfl⟩ := hap
      exact Heap.onlyDirsOwn_of_AddEntry h e name x r hr hinv
    · simp at hap
  | newEntry t p =>
    simp only [HeapOp.apply, Option.some.injEq] at hap
    subst hap
    exact Heap.onlyDirsOwn_new h t p hinv

theorem runOps_onlyDirsOwn (ops : List HeapOp) : ∀ (h h1 : Heap), Heap.OnlyDirsOwn h →
    runOps h ops = some h1 → Heap.OnlyDirsOwn h1 := by
  induction ops with
  | nil =>
    intro h h1 hinv hrun
    simp only [runOps, Option.some.injEq] at hrun
    subst hrun
    exact hinv
  | cons op rest ih =>
    intro h h1 hinv hrun
    simp only [runOps] at hrun
    cases hap : op.apply h with
    | none => simp [hap] at hrun
    | some h2 =>
      simp only [hap] at hrun
      exact ih h2 h1 (HeapOp.apply_onlyDirsOwn h h2 op hinv hap) hrun

/-- C15: "every entry that owns a child is a Directory" is kept by the insertion
methods. On a tree: when it holds of the receiver and of the inserted entry, it
holds of the receiver after `AddEntry`, `AddFile`, `AddDirectory` and `AddLink`,
whatever the outcome. On entries behind pointers: every step of a caller keeps it,
success or failure, wherever in the structure the receiver lies; so it holds of
all that is built from a fresh directory. -/
theorem C15_only_directories_own_children :
    (∀ (e : Entry) (n p : String) (x : Entry), e.onlyDirsOwn = true →
      (x.onlyDirsOwn = true → (e.AddEntry n x).receiver.onlyDirsOwn = true) ∧
      (e.AddFile n p).receiver.onlyDirsOwn = true ∧
      (e.AddDirectory n).receiver.onlyDirsOwn = true ∧
      (e.AddLink n p).receiver.onlyDirsOwn = true) ∧
    (∀ (h h1 : Heap) (op : HeapOp), Heap.OnlyDirsOwn h → op.apply h = some h1 →
      Heap.OnlyDirsOwn h1) ∧
    (∀ (ops : List HeapOp) (h : Heap), runOps freshDirectory ops = some h →
      Heap.OnlyDirsOwn h) := by
  refine ⟨?_, ?_, ?_⟩
  · intro e n p x he
    exact ⟨fun hx => Entry.onlyDirsOwn_AddEntry e n x he hx,
      Entry.onlyDirsOwn_AddEntry e n _ he rfl,
      Entry.onlyDirsOwn_AddEntry e n _ he rfl,
      Entry.onlyDirsOwn_AddEntry e n _ he rfl⟩
  · intro h h1 op hinv hap
    exact HeapOp.apply_onlyDirsOwn h h1 op hinv hap
  · intro ops h hrun
    refine runOps_onlyDirsOwn ops freshDirectory h ?_ hrun
    intro q node l hnode hl _
    cases q with
    | zero =>
      simp only [freshDirectory, List.getElem?_cons_zero, Option.some.injEq] at hnode
      subst hnode
      simp at hl
    | succ k => simp [freshDirectory] at hnode

/-- Witness of C15: a directory and a file below it, added to a fresh directory;
the failed attempt to add a child to the file leaves it without children. -/
theorem C15_only_directories_own_children_witness :
    runOps freshDirectory [HeapOp.addDirectory 0 "bin", HeapOp.addFile 1 "sh" "/bin/sh",
        HeapOp.addFile 2 "x" "y"] =
      some [⟨TypeDirectory, "", some [("bin", 1)]⟩, ⟨TypeDirectory, "", some [("sh", 2)]⟩,
        ⟨TypeRegular, "/bin/sh", none⟩, ⟨TypeRegular, "y", none⟩] ∧
    Heap.OnlyDirsOwn [⟨TypeDirectory, "", some [("bin", 1)]⟩,
      ⟨TypeDirectory, "", some [("sh", 2)]⟩, ⟨TypeRegular, "/bin/sh", none⟩,
      ⟨TypeRegular, "y", none⟩] ∧
    (sampleDir.AddEntry "new" sampleLink).receiver.onlyDirsOwn = true :=
  ⟨rfl,
    C15_only_directories_own_children.2.2
      [HeapOp.addDirectory 0 "bin", HeapOp.addFile 1 "sh" "/bin/sh", HeapOp.addFile 2 "x" "y"]
      _ rfl,
    (C15_only_directories_own_children.1 sampleDir "new" "" sampleLink rfl).1 rfl⟩

/-! ## What an insertion leaves as it was -/

theorem Entry.keys_AddEntry (e : Entry) (n : String) (x : Entry) :
    (e.AddEntry n x).receiver.keys =
      e.keys ++ (if (e.AddEntry n x).err = none then [n] else []) := by
  by_cases hd : e.IsDir = true
  · cases hc : e.child n with
    | some ee => rw [Entry.AddEntry_of_child e n x ee hd hc]; simp
    | none =>
      have hset : (e.children.getD []).set n x = e.children.getD [] ++ [(n, x)] :=
        Bindings.set_of_get_none _ n x (by rw [Entry.child_getD]; exact hc)
      rw [Entry.AddEntry_of_new e n x hd hc, hset]
      simp [Entry.keys, Entry.children]
  · rw [Entry.AddEntry_of_not_dir e n x (by simpa using hd)]
    simp

/-- C18, as amended: the insertion methods store a child under exactly the name
they are given and do not check it. The keys of the receiver after `AddEntry`,
`AddFile`, `AddDirectory` or `AddLink` are its keys before and, when the call
succeeds, the given name. Hence all keys are single path segments afterwards when
they were before and the given name is one. -/
theorem C18_keys_are_the_given_names (e : Entry) (n p : String) (x : Entry) :
    ((e.AddEntry n x).receiver.keys =
        e.keys ++ (if (e.AddEntry n x).err = none then [n] else []) ∧
      (e.AddFile n p).receiver.keys =
        e.keys ++ (if (e.AddFile n p).err = none then [n] else []) ∧
      (e.AddDirectory n).receiver.keys =
        e.keys ++ (if (e.AddDirectory n).err = none then [n] else []) ∧
      (e.AddLink n p).receiver.keys =
        e.keys ++ (if (e.AddLink n p).err = none then [n] else [])) ∧
    ((∀ k ∈ e.keys, isSegment k = true) → isSegment n = true →
      (∀ k ∈ (e.AddEntry n x).receiver.keys, isSegment k = true) ∧
      (∀ k ∈ (e.AddFile n p).receiver.keys, isSegment k = true) ∧
      (∀ k ∈ (e.AddDirectory n).receiver.keys, isSegment k = true) ∧
      (∀ k ∈ (e.AddLink n p).receiver.keys, isSegment k = true)) := by
  have key : ∀ y : Entry, (∀ k ∈ e.keys, isSegment k = true) → isSegment n = true →
      ∀ k ∈ (e.AddEntry n y).receiver.keys, isSegment k = true := by
    intro y hk hn k hmem
    rw [Entry.keys_AddEntry, List.mem_append] at hmem
    rcases hmem with hmem | hmem
    · exact hk k hmem
    · split at hmem
      · simp only [List.mem_singleton] at hmem
        rw [hmem]; exact hn
      · simp at hmem
  exact ⟨⟨Entry.keys_AddEntry e n x, Entry.keys_AddEntry e n _, Entry.keys_AddEntry e n _,
    Entry.keys_AddEntry e n _⟩,
    fun hk hn => ⟨key x hk hn, key _ hk hn, key _ hk hn, key _ hk hn⟩⟩

/-- Witness of C18 as amended: "new" is added to the directory of the tests that
holds "file". -/
theorem C18_keys_are_the_given_names_witness :
    ((∀ k ∈ sampleDir.keys, isSegment k = true) ∧ isSegment "new" = true) ∧
    (sampleDir.AddFile "new" "src").receiver.keys = ["file", "new"] ∧
    (∀ k ∈ (sampleDir.AddFile "new" "src").receiver.keys, isSegment k = true) :=
  have hk : ∀ k ∈ sampleDir.keys, isSegment k = true := by
    intro k hmem
    have : k = "file" := by simpa [Entry.keys, sampleDir, Entry.children] using hmem
    rw [this]; decide
  ⟨⟨hk, by decide⟩, rfl,
    ((C18_keys_are_the_given_names sampleDir "new" "src" sampleLink).2 hk (by decide)).2.1⟩

/-- Counterexample to C18: `AddFile` with the name "a/b" and `AddEntry` with the
empty name succeed on the directory of the tests and store the child under that
name. -/
theorem C18_counterexample :
    ((dirEntry.AddFile "a/b" "src").err = none ∧
      (dirEntry.AddFile "a/b" "src").receiver.keys = ["a/b"] ∧ isSegment "a/b" = false) ∧
    ((dirEntry.AddEntry "" sampleFile).err = none ∧
      (dirEntry.AddEntry "" sampleFile).receiver.keys = [""] ∧ isSegment "" = false) := by
  refine ⟨⟨rfl, rfl, ?_⟩, ⟨rfl, rfl, ?_⟩⟩ <;> decide

/-! ## The builder -/

/-- C13: for every entry-point path `P`, the root of the builder `New(P)` is a
Directory in which "/init" resolves, without error, to a Regular entry with
`RelatedPath` `P`; "init" is the only key of the root. -/
theorem C13_New_holds_init (P : String) :
    (New P).fileTree.IsDir = true ∧
    GetEntryPath (New P).fileTree "/init" = (some (Entry.mk TypeRegular P none), none) ∧
    (∀ x, (GetEntryPath (New P).fileTree "/init").1 = some x →
      x.type = TypeRegular ∧ x.relatedPath = P) ∧
    (New P).fileTree.keys = ["init"] ∧
    (∀ m, m ≠ "init" → (New P).fileTree.GetEntry m = (none, some ErrEntryNotExists)) := by
  refine ⟨rfl, rfl, ?_, rfl, ?_⟩
  · intro x hx
    have h : (GetEntryPath (New P).fileTree "/init").1 = some (Entry.mk TypeRegular P none) :=
      rfl
    rw [h] at hx
    simp only [Option.some.injEq] at hx
    subst hx
    exact ⟨rfl, rfl⟩
  · intro m hm
    have hroot : (New P).fileTree =
        Entry.mk TypeDirectory "" (some [("init", Entry.mk TypeRegular P none)]) := rfl
    rw [hroot]
    have hd : (Entry.mk TypeDirectory "" (some [("init", Entry.mk TypeRegular P none)])).IsDir
        = true := rfl
    simp only [Entry.GetEntry, hd, Entry.child_mk, Bindings.get_cons, Bindings.get_nil,
      Ne.symm hm]
    simp

/-- Witness of C13: the builder of the tests, `New("first")`. -/
theorem C13_New_holds_init_witness :
    GetEntryPath (New "first").fileTree "/init" =
      (some (Entry.mk TypeRegular "first" none), none) ∧
    (New "first").fileTree.keys = ["init"] :=
  ⟨(C13_New_holds_init "first").2.1, (C13_New_holds_init "first").2.2.2.1⟩

theorem Entry.child_replaceChild (e : Entry) (name : String) (c : Entry) (m : String) :
    (e.replaceChild name c).child m = if m = name then some c else e.child m := by
  unfold Entry.replaceChild
  rw [Entry.child_mk]
  by_cases h : m = name
  · subst h; simp [Bindings.get_set_self]
  · simp [h, Bindings.get_set_other _ _ _ _ h, Entry.child_getD]

theorem Entry.IsDir_replaceChild (e : Entry) (name : String) (c : Entry) :
    (e.replaceChild name c).IsDir = e.IsDir := rfl

/-- Resolution of a path of two segments below the staging directory. -/
theorem Archive.resolve_staged (a : Archive) (hwf : a.wellFormed) (key : String) :
    resolve a.fileTree [filesDir, key] =
      match a.staged key with
      | some x => (some x, none)
      | none => (none, some ErrEntryNotExists) := by
  obtain ⟨hroot, hstage⟩ := hwf
  unfold Archive.staged
  simp only [resolve, Entry.GetEntry, hroot]
  cases hc : a.fileTree.child filesDir with
  | none => simp
  | some dir =>
    have hd := hstage dir hc
    simp only [Bool.not_true, Bool.false_eq_true, if_false, hd, Option.some_bind]
    cases dir.child key <;> simp

/-- The builder's `AddFile`, case by case. -/
theorem Archive.AddFile_spec (base : String → String) (a : Archive) (hwf : a.wellFormed)
    (name relatedPath : String) :
    (a.staged (insertionKey base name relatedPath) = none →
      (a.AddFile base name relatedPath).2 = none ∧
      (a.AddFile base name relatedPath).1.wellFormed ∧
      (a.AddFile base name relatedPath).1.staged (insertionKey base name relatedPath) =
        some (Entry.mk TypeRegular relatedPath none) ∧
      ∀ m, m ≠ insertionKey base name relatedPath →
        (a.AddFile base name relatedPath).1.staged m = a.staged m) ∧
    (∀ x, a.staged (insertionKey base name relatedPath) = some x →
      a.AddFile base name relatedPath = (a, some ErrEntryExists)) := by
  obtain ⟨hroot, hstage⟩ := hwf
  cases hc : a.fileTree.child filesDir with
  | none =>
    have hget : a.fileTree.GetEntry filesDir = (none, some ErrEntryNotExists) := by
      simp [Entry.GetEntry, hroot, hc]
    have hdir : (Entry.mk TypeDirectory "" none).IsDir = true := rfl
    have hnone : (Entry.mk TypeDirectory "" none).child
        (insertionKey base name relatedPath) = none := rfl
    have hres : a.AddFile base name relatedPath =
        (⟨(a.fileTree.AddDirectory filesDir).receiver.replaceChild filesDir
          ((Entry.mk TypeDirectory "" none).AddFile (insertionKey base name relatedPath)
            relatedPath).receiver⟩, none) := by
      simp only [Archive.AddFile, hget]
    constructor
    · intro _
      rw [hres]
      have hrootdir : ((a.fileTree.AddDirectory filesDir).receiver.replaceChild filesDir
          ((Entry.mk TypeDirectory "" none).AddFile (insertionKey base name relatedPath)
            relatedPath).receiver).IsDir = true := by
        rw [Entry.IsDir_replaceChild]
        unfold Entry.AddDirectory
        rw [Entry.IsDir_AddEntry]
        exact hroot
      have hnewdir : ((Entry.mk TypeDirectory "" none).AddFile
          (insertionKey base name relatedPath) relatedPath).receiver.IsDir = true := by
        unfold Entry.AddFile
        rw [Entry.IsDir_AddEntry]
        rfl
      have hnewchild := Entry.child_AddEntry_new (Entry.mk TypeDirectory "" none)
        (insertionKey base name relatedPath) (Entry.mk TypeRegular relatedPath none) hdir hnone
      refine ⟨rfl, ⟨hrootdir, ?_⟩, ?_, ?_⟩
      · intro x hx
        simp only [Entry.child_replaceChild, if_true, Option.some.injEq] at hx
        rw [← hx]
        exact hnewdir
      · simp only [Archive.staged, Entry.child_replaceChild, if_true, Option.some_bind]
        unfold Entry.AddFile
        rw [hnewchild, if_pos rfl]
      · intro m hm
        simp only [Archive.staged, Entry.child_replaceChild, if_true, Option.some_bind, hc,
          Option.none_bind]
        unfold Entry.AddFile
        rw [hnewchild, if_neg hm]
        rfl
    · intro x hx
      simp [Archive.staged, hc] at hx
  | some dir =>
    have hd := hstage dir hc
    have hget : a.fileTree.GetEntry filesDir = (some dir, none) := by
      simp [Entry.GetEntry, hroot, hc]
    constructor
    · intro hkey
      have hnone : dir.child (insertionKey base name relatedPath) = none := by
        simpa [Archive.staged, hc] using hkey
      have hadd := Entry.AddEntry_of_new dir (insertionKey base name relatedPath)
        (Entry.mk TypeRegular relatedPath none) hd hnone
      have hnewchild := Entry.child_AddEntry_new dir (insertionKey base name relatedPath)
        (Entry.mk TypeRegular relatedPath none) hd hnone
      have herr : (dir.AddFile (insertionKey base name relatedPath) relatedPath).err = none := by
        unfold Entry.AddFile; rw [hadd]
      have hres : a.AddFile base name relatedPath =
          (⟨a.fileTree.replaceChild filesDir
            (dir.AddFile (insertionKey base name relatedPath) relatedPath).receiver⟩, none) := by
        simp only [Archive.AddFile, hget, herr]
      have hnewdir : (dir.AddFile (insertionKey base name relatedPath)
          relatedPath).receiver.IsDir = true := by
        unfold Entry.AddFile
        rw [Entry.IsDir_AddEntry]
        exact hd
      rw [hres]
      refine ⟨rfl, ⟨by rw [Entry.IsDir_replaceChild]; exact hroot, ?_⟩, ?_, ?_⟩
      · intro x hx
        simp only [Entry.child_replaceChild, if_true, Option.some.injEq] at hx
        rw [← hx]
        exact hnewdir
      · simp only [Archive.staged, Entry.child_replaceChild, if_true, Option.some_bind]
        unfold Entry.AddFile
        rw [hnewchild, if_pos rfl]
      · intro m hm
        simp only [Archive.staged, Entry.child_replaceChild, if_true, Option.some_bind, hc]
        unfold Entry.AddFile
        rw [hnewchild, if_neg hm]
    · intro x hx
      have hsome : dir.child (insertionKey base name relatedPath) = some x := by
        simpa [Archive.staged, hc] using hx
      have hadd := Entry.AddEntry_of_child dir (insertionKey base name relatedPath)
        (Entry.mk TypeRegular relatedPath none) x hd hsome
      have herr : (dir.AddFile (insertionKey base name relatedPath) relatedPath).err =
          some ErrEntryExists := by
        unfold Entry.AddFile; rw [hadd]
      simp only [Archive.AddFile, hget, herr]

theorem Archive.resolve_staged_fst (a : Archive) (hwf : a.wellFormed) (key : String) :
    (resolve a.fileTree [filesDir, key]).1 = a.staged key := by
  rw [Archive.resolve_staged a hwf key]
  cases a.staged key <;> rfl

theorem insertionKey_empty (base : String → String) (path : String) :
    insertionKey base "" path = base path := by
  simp [insertionKey]

/-- The builder's `AddFiles` on paths with distinct base names, none of them
staged yet. -/
theorem Archive.AddFiles_spec (base : String → String) (paths : List String) :
    ∀ a : Archive, a.wellFormed → (paths.map base).Nodup →
      (∀ p ∈ paths, a.staged (base p) = none) →
      (Archive.AddFiles base a paths).2 = none ∧
      (Archive.AddFiles base a paths).1.wellFormed ∧
      (∀ p ∈ paths, (Archive.AddFiles base a paths).1.staged (base p) =
        some (Entry.mk TypeRegular p none)) ∧
      (∀ m, m ∉ paths.map base → (Archive.AddFiles base a paths).1.staged m = a.staged m) := by
  induction paths with
  | nil =>
    intro a hwf _ _
    exact ⟨rfl, hwf, by simp, fun _ _ => rfl⟩
  | cons p rest ih =>
    intro a hwf hnd hnew
    rw [List.map_cons, List.nodup_cons] at hnd
    have hp : a.staged (insertionKey base "" p) = none := by
      rw [insertionKey_empty]; exact hnew p (List.mem_cons_self _ _)
    obtain ⟨herr, hwf1, hkey, hframe⟩ := (Archive.AddFile_spec base a hwf "" p).1 hp
    rw [insertionKey_empty] at hkey hframe
    have hstep : Archive.AddFiles base a (p :: rest) =
        Archive.AddFiles base (a.AddFile base "" p).1 rest := by
      rcases hr : a.AddFile base "" p with ⟨a1, err⟩
      rw [hr] at herr
      simp only at herr
      subst herr
      simp only [Archive.AddFiles, hr]
    have hnew1 : ∀ q ∈ rest, (a.AddFile base "" p).1.staged (base q) = none := by
      intro q hq
      have hne : base q ≠ base p := fun h => hnd.1 (h ▸ List.mem_map_of_mem base hq)
      rw [hframe (base q) hne]
      exact hnew q (List.mem_cons_of_mem _ hq)
    obtain ⟨h1, h2, h3, h4⟩ := ih (a.AddFile base "" p).1 hwf1 hnd.2 hnew1
    rw [hstep]
    refine ⟨h1, h2, ?_, ?_⟩
    · intro q hq
      rcases List.mem_cons.1 hq with rfl | hq
      · rw [h4 _ hnd.1, hkey]
      · exact h3 q hq
    · intro m hm
      rw [List.map_cons, List.mem_cons, not_or] at hm
      rw [h4 m hm.2, hframe m hm.1]

/-- The builder's `AddFiles` fails when the base name of one of the paths is
staged already. -/
theorem Archive.AddFiles_fails (base : String → String) (paths : List String) :
    ∀ a : Archive, a.wellFormed → (∃ p ∈ paths, (a.staged (base p)).isSome = true) →
      (Archive.AddFiles base a paths).2 ≠ none := by
  induction paths with
  | nil =>
    rintro a _ ⟨p, hp, _⟩
    simp at hp
  | cons p rest ih =>
    rintro a hwf ⟨q, hq, hsome⟩
    cases hp : a.staged (insertionKey base "" p) with
    | some x =>
      have := (Archive.AddFile_spec base a hwf "" p).2 x hp
      simp [Archive.AddFiles, this]
    | none =>
      obtain ⟨herr, hwf1, _, hframe⟩ := (Archive.AddFile_spec base a hwf "" p).1 hp
      rw [insertionKey_empty] at hp hframe
      have hstep : Archive.AddFiles base a (p :: rest) =
          Archive.AddFiles base (a.AddFile base "" p).1 rest := by
        rcases hr : a.AddFile base "" p with ⟨a1, err⟩
        rw [hr] at herr
        simp only at herr
        subst herr
        simp only [Archive.AddFiles, hr]
      rw [hstep]
      have hne : base q ≠ base p := by
        intro h
        rw [h, hp] at hsome
        simp at hsome
      have hqrest : q ∈ rest := by
        rcases List.mem_cons.1 hq with rfl | hq
        · exact absurd rfl hne
        · exact hq
      exact ih _ hwf1 ⟨q, hqrest, by rw [hframe (base q) hne]; exact hsome⟩

/-- C14: on a builder whose root is a Directory (as is its staging directory, if
there): `AddFile(name, relatedPath)` with a key not yet staged succeeds, and
afterwards the path of the two segments "files" and the key resolves to a Regular
entry with `RelatedPath` `relatedPath`; the key is `name`, or the base name of
`relatedPath` when `name` is empty. With a key that is staged already the call
fails with `ErrEntryExists` and leaves the builder as it was. `AddFiles` stages
each path under its base name with the path as `RelatedPath`, and fails when one
of the base names is staged already. -/
theorem C14_builder_AddFile (base : String → String) (a : Archive) (hwf : a.wellFormed)
    (name relatedPath : String) :
    (insertionKey base name relatedPath = if name = "" then base relatedPath else name) ∧
    ((resolve a.fileTree [filesDir, insertionKey base name relatedPath]).1 = none →
      (a.AddFile base name relatedPath).2 = none ∧
      resolve (a.AddFile base name relatedPath).1.fileTree
          [filesDir, insertionKey base name relatedPath] =
        (some (Entry.mk TypeRegular relatedPath none), none)) ∧
    (∀ x, resolve a.fileTree [filesDir, insertionKey base name relatedPath] = (some x, none) →
      a.AddFile base name relatedPath = (a, some ErrEntryExists)) ∧
    (∀ paths : List String, (paths.map base).Nodup →
      (∀ p ∈ paths, (resolve a.fileTree [filesDir, base p]).1 = none) →
      (Archive.AddFiles base a paths).2 = none ∧
      ∀ p ∈ paths, resolve (Archive.AddFiles base a paths).1.fileTree [filesDir, base p] =
        (some (Entry.mk TypeRegular p none), none)) ∧
    (∀ paths : List String,
      (∃ p ∈ paths, (resolve a.fileTree [filesDir, base p]).1.isSome = true) →
      (Archive.AddFiles base a paths).2 ≠ none) := by
  refine ⟨rfl, ?_, ?_, ?_, ?_⟩
  · intro hkey
    rw [Archive.resolve_staged_fst a hwf] at hkey
    obtain ⟨herr, hwf1, hst, _⟩ := (Archive.AddFile_spec base a hwf name relatedPath).1 hkey
    refine ⟨herr, ?_⟩
    rw [Archive.resolve_staged _ hwf1, hst]
  · intro x hx
    have h := Archive.resolve_staged_fst a hwf (insertionKey base name relatedPath)
    rw [hx] at h
    exact (Archive.AddFile_spec base a hwf name relatedPath).2 x h.symm
  · intro paths hnd hnew
    have hnew1 : ∀ p ∈ paths, a.staged (base p) = none := by
      intro p hp
      rw [← Archive.resolve_staged_fst a hwf]
      exact hnew p hp
    obtain ⟨h1, h2, h3, _⟩ := Archive.AddFiles_spec base paths a hwf hnd hnew1
    refine ⟨h1, ?_⟩
    intro p hp
    rw [Archive.resolve_staged _ h2, h3 p hp]
  · rintro paths ⟨p, hp, hsome⟩
    rw [Archive.resolve_staged_fst a hwf] at hsome
    exact Archive.AddFiles_fails base paths a hwf ⟨p, hp, hsome⟩

/-- Witness of C14: the calls of the tests on `New("first")`: `AddFile` with the
name "second", and with an empty name for "/abs/fourth". -/
theorem C14_builder_AddFile_witness :
    (New "first").wellFormed ∧
    (((New "first").AddFile lastSegment "second" "rel/third").2 = none ∧
      resolve ((New "first").AddFile lastSegment "second" "rel/third").1.fileTree
          [filesDir, "second"] =
        (some (Entry.mk TypeRegular "rel/third" none), none)) ∧
    (((New "first").AddFile lastSegment "" "/abs/fourth").2 = none ∧
      resolve ((New "first").AddFile lastSegment "" "/abs/fourth").1.fileTree
          [filesDir, "fourth"] =
        (some (Entry.mk TypeRegular "/abs/fourth" none), none)) :=
  have hwf : (New "first").wellFormed :=
    ⟨rfl, fun _ hx =>
      Option.noConfusion
        ((rfl : (New "first").fileTree.child filesDir = none).symm.trans hx)⟩
  ⟨hwf, (C14_builder_AddFile lastSegment (New "first") hwf "second" "rel/third").2.1 rfl,
    (C14_builder_AddFile lastSegment (New "first") hwf "" "/abs/fourth").2.1 rfl⟩

/-! ## Serialization -/

theorem calledWriter_wrap {ε : Type} (r : Option ε) :
    calledWriter (r.map WriteError.writerFailure) = true := by
  cases r <;> rfl

/-- One call of the serialization callback with a logged writer: the writer is
called once, with the operation that matches the entry, unless the callback fails
before it calls the writer. -/
theorem writeEntry_logWriter {ω ε : Type} (openSource : String → Option ε)
    (w : Writer ω ε) (p : String) (x : Entry) (s : ω) (log : List WriterOp) :
    ∃ new : List WriterOp,
      writeEntry openSource (logWriter w) p x (s, log) =
        (((writeEntry openSource w p x s).1, log ++ new), (writeEntry openSource w p x s).2) ∧
      new.map some =
        if calledWriter (writeEntry openSource w p x s).2 then [opFor p x] else [] := by
  unfold writeEntry opFor
  by_cases h1 : x.type = TypeDirectory
  · simp only [if_pos h1]
    refine ⟨[WriterOp.directory p], rfl, ?_⟩
    simp only [wrapWriter]
    simp [calledWriter_wrap]
  · by_cases h2 : x.type = TypeLink
    · simp only [if_neg h1, if_pos h2]
      refine ⟨[WriterOp.link p x.relatedPath], rfl, ?_⟩
      simp only [wrapWriter]
      simp [calledWriter_wrap]
    · by_cases h3 : x.type = TypeRegular
      · simp only [if_neg h1, if_neg h2, if_pos h3]
        cases openSource x.relatedPath with
        | some cause => exact ⟨[], by simp, by simp [calledWriter]⟩
        | none =>
          refine ⟨[WriterOp.regular p x.relatedPath 0o755], rfl, ?_⟩
          simp only [wrapWriter]
          simp [calledWriter_wrap]
      · simp only [if_neg h1, if_neg h2, if_neg h3]
        exact ⟨[], by simp, by simp [calledWriter]⟩

/-- The calls of the writer are those of the calls of the callback that reached
the writer, one each, in order. -/
theorem callEach_logs {ω ε : Type} (openSource : String → Option ε) (w : Writer ω ε)
    (T : List (String × Entry)) :
    ∀ (s : ω) (ilog : List (Invocation (WriteError ε))) (olog : List WriterOp),
    ∃ (inew : List (Invocation (WriteError ε))) (onew : List WriterOp),
      (callEach (record (writeEntry openSource w)) T (s, ilog)).1.2 = ilog ++ inew ∧
      callEach (writeEntry openSource (logWriter w)) T (s, olog) =
        (((callEach (writeEntry openSource w) T s).1, olog ++ onew),
          (callEach (writeEntry openSource w) T s).2) ∧
      onew.map some =
        (inew.filter (fun i => calledWriter i.err)).map (fun i => opFor i.path i.entry) := by
  induction T with
  | nil =>
    intro s ilog olog
    exact ⟨[], [], by simp [callEach], by simp [callEach], rfl⟩
  | cons v T ih =>
    obtain ⟨p, x⟩ := v
    intro s ilog olog
    obtain ⟨o1, ho1, hmap1⟩ := writeEntry_logWriter openSource w p x s olog
    rcases hf : writeEntry openSource w p x s with ⟨s1, _ | err⟩
    · rw [hf] at ho1 hmap1
      obtain ⟨inew, onew, hi, ho, hrel⟩ :=
        ih s1 (ilog ++ [⟨p, x, none⟩]) (olog ++ o1)
      refine ⟨⟨p, x, none⟩ :: inew, o1 ++ onew, ?_, ?_, ?_⟩
      · simp only [callEach, record, hf]
        rw [hi]
        simp
      · simp only [callEach, ho1, hf, ho, List.append_assoc]
      · simp only [calledWriter, if_true] at hmap1
        simp only [List.map_append, hmap1, hrel, List.filter_cons, calledWriter, if_true,
          List.map_cons, List.singleton_append]
    · rw [hf] at ho1 hmap1
      refine ⟨[⟨p, x, some err⟩], o1, ?_, ?_, ?_⟩
      · simp only [callEach, record, hf]
      · simp only [callEach, ho1, hf]
      · rw [hmap1]
        by_cases hc : calledWriter (some err) = true
        · simp [hc]
        · simp [hc]

theorem forall₂_comp {α β γ : Type} {R : α → β → Prop} {S : β → γ → Prop} (a : List α) :
    ∀ (b : List β) (c : List γ), List.Forall₂ R a b → List.Forall₂ S b c →
    List.Forall₂ (fun x z => ∃ y, R x y ∧ S y z) a c := by
  induction a with
  | nil =>
    intro b c hab hbc
    cases hab
    cases hbc
    exact List.Forall₂.nil
  | cons x a ih =>
    intro b c hab hbc
    cases hab with
    | cons hxy hab =>
      cases hbc with
      | cons hyz hbc => exact List.Forall₂.cons ⟨_, hxy, hyz⟩ (ih _ _ hab hbc)

/-- Every recorded call carries the error that the callback returned for its
arguments in some state. -/
theorem callEach_record_err {σ ε : Type} (fn : WalkFunc σ ε) (T : List (String × Entry)) :
    ∀ (s : σ) (log : List (Invocation ε)),
      ∀ i ∈ (callEach (record fn) T (s, log)).1.2, i ∈ log ∨
        ∃ st, i.err = (fn i.path i.entry st).2 := by
  induction T with
  | nil =>
    intro s log i hi
    exact Or.inl (by simpa [callEach] using hi)
  | cons v T ih =>
    obtain ⟨p, x⟩ := v
    intro s log i hi
    rcases hf : fn p x s with ⟨s1, _ | err⟩
    · simp only [callEach, record, hf] at hi
      rcases ih s1 _ i hi with hmem | hst
      · rcases List.mem_append.1 hmem with hmem | hmem
        · exact Or.inl hmem
        · simp only [List.mem_singleton] at hmem
          right
          exact ⟨s, by rw [hmem]; simp [hf]⟩
      · exact Or.inr hst
    · simp only [callEach, record, hf] at hi
      rcases List.mem_append.1 hi with hmem | hmem
      · exact Or.inl hmem
      · simp only [List.mem_singleton] at hmem
        right
        exact ⟨s, by rw [hmem]; simp [hf]⟩

theorem invocations_err {σ ε : Type} (join : String → String → String) (fn : WalkFunc σ ε)
    (e : Entry) (base : String) (s : σ) :
    ∀ i ∈ invocations join fn e base s, ∃ st, i.err = (fn i.path i.entry st).2 := by
  intro i hi
  unfold invocations at hi
  rw [Entry.walk_eq_callEach] at hi
  rcases callEach_record_err fn _ s [] i hi with h | h
  · simp at h
  · exact h

/-- The calls of the writer during `writeTo` are those of the calls of the
callback that reached the writer. -/
theorem writerOps_eq {ω ε : Type} (join : String → String → String)
    (openSource : String → Option ε) (w : Writer ω ε) (root : Entry) (s : ω) :
    (writerOps join openSource w root s).map some =
      ((invocations join (writeEntry openSource w) root "/" s).filter
        (fun i => calledWriter i.err)).map (fun i => opFor i.path i.entry) := by
  obtain ⟨inew, onew, hi, ho, hrel⟩ := callEach_logs openSource w
    (root.visits.map (fun v => (pathOf join "/" v.1, v.2))) s [] []
  have h1 : invocations join (writeEntry openSource w) root "/" s = inew := by
    unfold invocations
    rw [Entry.walk_eq_callEach, hi]
    simp
  have h2 : writerOps join openSource w root s = onew := by
    unfold writerOps writeTo
    rw [Entry.walk_eq_callEach, ho]
    simp
  rw [h1, h2, hrel]

theorem writeEntry_unknown {ω ε : Type} (openSource : String → Option ε) (w : Writer ω ε)
    (p : String) (x : Entry) (s : ω)
    (hx : x.type ≠ TypeRegular ∧ x.type ≠ TypeDirectory ∧ x.type ≠ TypeLink) :
    writeEntry openSource w p x s = (s, some (WriteError.unknownFileType x.type.val)) := by
  unfold writeEntry
  simp only [if_neg hx.2.1, if_neg hx.2.2, if_neg hx.1]

/-- C11: `writeTo` (modelled from the spec) hands every visited entry to the writer
operation that matches its `Type`: a call of the callback on a Directory at `p`
calls `WriteDirectory(p)` and nothing else, on a Link `WriteLink(p, RelatedPath)`,
on a Regular entry whose source opens `WriteRegular(p, RelatedPath, 0755)`. Over
the whole run the calls of the writer are, in order, one for each call of the
callback that reached the writer; when `writeTo` returns no error on a tree with
unique keys, they correspond one to one to the chains of names that lead through
Directory entries to an entry, each call being the operation for that entry at
the path of the chain below "/". -/
theorem C11_writeTo_dispatch {ω ε : Type} (join : String → String → String)
    (openSource : String → Option ε) (w : Writer ω ε) (root : Entry) (s : ω) :
    (∀ (p : String) (x : Entry) (t : ω) (log : List WriterOp),
      (x.type = TypeDirectory →
        (writeEntry openSource (logWriter w) p x (t, log)).1.2 =
          log ++ [WriterOp.directory p]) ∧
      (x.type = TypeLink →
        (writeEntry openSource (logWriter w) p x (t, log)).1.2 =
          log ++ [WriterOp.link p x.relatedPath]) ∧
      (x.type = TypeRegular → openSource x.relatedPath = none →
        (writeEntry openSource (logWriter w) p x (t, log)).1.2 =
          log ++ [WriterOp.regular p x.relatedPath 0o755])) ∧
    ((writerOps join openSource w root s).map some =
      ((invocations join (writeEntry openSource w) root "/" s).filter
        (fun i => calledWriter i.err)).map (fun i => opFor i.path i.entry)) ∧
    ((writeTo join openSource w root s).2 = none → root.wf = true →
      ∃ chains : List (List String), chains.Nodup ∧
        (∀ c, c ∈ chains ↔ (root.reach c).isSome = true) ∧
        List.Forall₂
          (fun op c => ∃ x, root.reach c = some x ∧ opFor (pathOf join "/" c) x = some op)
          (writerOps join openSource w root s) chains) := by
  have hdl : TypeLink ≠ TypeDirectory := by decide
  have hdr : TypeRegular ≠ TypeDirectory := by decide
  have hlr : TypeRegular ≠ TypeLink := by decide
  refine ⟨?_, writerOps_eq join openSource w root s, ?_⟩
  · intro p x t log
    refine ⟨?_, ?_, ?_⟩
    · intro h1
      simp only [writeEntry, if_pos h1]
      rfl
    · intro h2
      have h1 : x.type ≠ TypeDirectory := by rw [h2]; exact hdl
      simp only [writeEntry, if_neg h1, if_pos h2]
      rfl
    · intro h3 hopen
      have h1 : x.type ≠ TypeDirectory := by rw [h3]; exact hdr
      have h2 : x.type ≠ TypeLink := by rw [h3]; exact hlr
      simp only [writeEntry, if_neg h1, if_neg h2, if_pos h3, hopen]
      rfl
  · intro hres hwf
    have hres2 : (root.walk join (writeEntry openSource w) "/" s).2 = none := hres
    obtain ⟨_, hok, _⟩ := invocations_spec join (writeEntry openSource w) root "/" s
    obtain ⟨hlen, hall⟩ := hok hres2
    have hchains := invocations_chains join (writeEntry openSource w) root hwf "/" s
    have hfull : (root.visits.map Prod.fst).take
        (invocations join (writeEntry openSource w) root "/" s).length =
        root.visits.map Prod.fst := by
      rw [hlen]
      exact List.take_of_length_le (by simp)
    rw [hfull] at hchains
    have hfilter : (invocations join (writeEntry openSource w) root "/" s).filter
        (fun i => calledWriter i.err) = invocations join (writeEntry openSource w) root "/" s := by
      rw [List.filter_eq_self]
      intro i hi
      rw [hall i hi]
      rfl
    have hops := writerOps_eq join openSource w root s
    rw [hfilter] at hops
    have hrel := forall₂_of_map_eq (fun op : WriterOp => some op)
      (fun i : Invocation (WriteError ε) => opFor i.path i.entry) (fun _ => True)
      (writerOps join openSource w root s) _ (fun _ _ => trivial) hops
    refine ⟨root.visits.map Prod.fst, (Entry.chains_depthFirst_aux.1 root hwf).2,
      Entry.mem_chains_iff root hwf, ?_⟩
    refine (forall₂_comp _ _ _ hrel hchains).imp ?_
    rintro op c ⟨i, ⟨hop, _⟩, hpath, hreach⟩
    exact ⟨i.entry, hreach, by rw [← hpath]; exact hop.symm⟩

/-- Witness of C11: the sample tree written to a writer that never fails, from a
source filesystem on which every path opens. -/
theorem C11_writeTo_dispatch_witness :
    ((writeTo slashJoin (fun _ => none) (mockWriter none) sampleTree ()).2 = none ∧
      sampleTree.wf = true) ∧
    (∃ chains : List (List String), chains.Nodup ∧
      (∀ c, c ∈ chains ↔ (sampleTree.reach c).isSome = true) ∧
      List.Forall₂
        (fun op c => ∃ x, sampleTree.reach c = some x ∧
          opFor (pathOf slashJoin "/" c) x = some op)
        (writerOps slashJoin (fun _ => none) (mockWriter none) sampleTree ()) chains) ∧
    writerOps slashJoin (fun _ => none) (mockWriter none) sampleTree () =
      [WriterOp.directory "//bin", WriterOp.regular "//bin/sh" "/bin/sh" 0o755,
        WriterOp.directory "//bin/sub", WriterOp.link "//bin/sub/x" "/y",
        WriterOp.regular "//init" "first" 0o755, WriterOp.link "//lib" "/usr/lib"] :=
  ⟨⟨rfl, rfl⟩,
    (C11_writeTo_dispatch slashJoin (fun _ => none) (mockWriter none) sampleTree ()).2.2
      rfl rfl,
    rfl⟩

theorem forall₂_right_mem {α β : Type} {R : α → β → Prop} (a : List α) :
    ∀ (b : List β), List.Forall₂ R a b → ∀ y ∈ b, ∃ x ∈ a, R x y := by
  induction a with
  | nil =>
    intro b hab y hy
    cases hab
    simp at hy
  | cons x a ih =>
    intro b hab y hy
    cases hab with
    | cons hxy hrest =>
      rcases List.mem_cons.1 hy with rfl | hy
      · exact ⟨x, List.mem_cons_self _ _, hxy⟩
      · obtain ⟨x2, hx2, hr⟩ := ih _ hrest y hy
        exact ⟨x2, List.mem_cons_of_mem _ hx2, hr⟩

theorem opFor_some_type (p : String) (x : Entry) (op : WriterOp) (h : opFor p x = some op) :
    x.type = TypeRegular ∨ x.type = TypeDirectory ∨ x.type = TypeLink := by
  by_contra hne
  simp only [not_or] at hne
  simp [opFor, hne.1, hne.2.1, hne.2.2] at h

/-- Serialization of a tree that holds, at the end of a chain through
Directory entries, an entry of a type outside the defined set does not succeed. -/
theorem writeTo_fails_of_reach {ω ε : Type} (join : String → String → String)
    (openSource : String → Option ε) (w : Writer ω ε) (root : Entry) (s : ω)
    (hwf : root.wf = true) (c : List String) (x : Entry) (hreach : root.reach c = some x)
    (hx : x.type ≠ TypeRegular ∧ x.type ≠ TypeDirectory ∧ x.type ≠ TypeLink) :
    (writeTo join openSource w root s).2 ≠ none := by
  intro hres
  have hres2 : (root.walk join (writeEntry openSource w) "/" s).2 = none := hres
  obtain ⟨_, hok, _⟩ := invocations_spec join (writeEntry openSource w) root "/" s
  obtain ⟨hlen, hall⟩ := hok hres2
  have hchains := invocations_chains join (writeEntry openSource w) root hwf "/" s
  have hfull : (root.visits.map Prod.fst).take
      (invocations join (writeEntry openSource w) root "/" s).length =
      root.visits.map Prod.fst := by
    rw [hlen]
    exact List.take_of_length_le (by simp)
  rw [hfull] at hchains
  have hc : c ∈ root.visits.map Prod.fst :=
    (Entry.mem_chains_iff root hwf c).2 (by rw [hreach]; rfl)
  obtain ⟨i, hi, _, hentry⟩ := forall₂_right_mem _ _ hchains c hc
  have hix : i.entry = x := by
    rw [hreach] at hentry
    exact (Option.some.inj hentry).symm
  obtain ⟨st, hst⟩ := invocations_err join (writeEntry openSource w) root "/" s i hi
  rw [writeEntry_unknown openSource w i.path i.entry st (by rw [hix]; exact hx)] at hst
  rw [hall i hi] at hst
  simp at hst

/-- Every call of the writer during `writeTo` is the operation for an entry the
callback was called on, and that entry has one of the three defined types. -/
theorem writerOps_mem {ω ε : Type} (join : String → String → String)
    (openSource : String → Option ε) (w : Writer ω ε) (root : Entry) (s : ω) :
    ∀ op ∈ writerOps join openSource w root s,
      ∃ i ∈ invocations join (writeEntry openSource w) root "/" s,
        opFor i.path i.entry = some op ∧
        (i.entry.type = TypeRegular ∨ i.entry.type = TypeDirectory ∨
          i.entry.type = TypeLink) := by
  intro op hop
  have hmem : some op ∈ (writerOps join openSource w root s).map some :=
    List.mem_map_of_mem some hop
  rw [writerOps_eq] at hmem
  obtain ⟨i, hi, hiop⟩ := List.mem_map.1 hmem
  exact ⟨i, (List.mem_filter.1 hi).1, hiop, opFor_some_type i.path i.entry op hiop⟩

/-- C12, as amended: for an entry whose `Type` is none of Regular, Directory and
Link, the serialization callback (modelled from the spec) returns the error for an
unknown file type with the numeric value of the type, whose message is "unknown
file type" followed by the value, and calls no operation of the writer.
Serializing a tree (with unique keys) that reaches such an entry fails, with the
error of the last call of the callback, every call before it having succeeded.
When `writeTo` gets as far as calling the callback on the entry, that call is the
last one, `writeTo` returns this error, and the calls of the writer are those for
the entries visited before; otherwise it has stopped at an earlier entry with
that entry's error. In every case each call of the writer is for an entry of one
of the three defined types. -/
theorem C12_unknown_file_type {ω ε : Type} (join : String → String → String)
    (openSource : String → Option ε) (w : Writer ω ε) (root : Entry) (s : ω) :
    (∀ (p : String) (x : Entry) (t : ω) (log : List WriterOp),
      x.type ≠ TypeRegular ∧ x.type ≠ TypeDirectory ∧ x.type ≠ TypeLink →
      writeEntry openSource w p x t = (t, some (WriteError.unknownFileType x.type.val)) ∧
      writeEntry openSource (logWriter w) p x (t, log) =
        ((t, log), some (WriteError.unknownFileType x.type.val))) ∧
    (∀ (causeMessage : ε → String) (value : Int),
      (WriteError.unknownFileType value).message causeMessage =
        "unknown file type " ++ toString value) ∧
    (∀ front i back, invocations join (writeEntry openSource w) root "/" s = front ++ i :: back →
      i.entry.type ≠ TypeRegular ∧ i.entry.type ≠ TypeDirectory ∧ i.entry.type ≠ TypeLink →
      back = [] ∧
      (writeTo join openSource w root s).2 =
        some (WriteError.unknownFileType i.entry.type.val) ∧
      (writerOps join openSource w root s).map some =
        front.map (fun j => opFor j.path j.entry)) ∧
    (∀ (c : List String) (x : Entry), root.wf = true → root.reach c = some x →
      x.type ≠ TypeRegular ∧ x.type ≠ TypeDirectory ∧ x.type ≠ TypeLink →
      ∃ front i err,
        invocations join (writeEntry openSource w) root "/" s = front ++ [i] ∧
        (∀ j ∈ front, j.err = none) ∧ i.err = some err ∧
        (writeTo join openSource w root s).2 = some err) ∧
    (∀ op ∈ writerOps join openSource w root s,
      ∃ i ∈ invocations join (writeEntry openSource w) root "/" s,
        opFor i.path i.entry = some op ∧
        (i.entry.type = TypeRegular ∨ i.entry.type = TypeDirectory ∨
          i.entry.type = TypeLink)) := by
  refine ⟨?_, fun _ _ => rfl, ?_, ?_, writerOps_mem join openSource w root s⟩
  rotate_left 2
  · intro c x hwf hreach hx
    have hne := writeTo_fails_of_reach join openSource w root s hwf c x hreach hx
    obtain ⟨_, _, hfail⟩ := invocations_spec join (writeEntry openSource w) root "/" s
    cases hr : (root.walk join (writeEntry openSource w) "/" s).2 with
    | none => exact absurd hr hne
    | some err =>
      obtain ⟨init, last, hl, hlast, hinit⟩ := hfail err hr
      exact ⟨init, last, err, hl, hinit, hlast, hr⟩
  · intro p x t log hx
    exact ⟨writeEntry_unknown openSource w p x t hx,
      writeEntry_unknown openSource (logWriter w) p x (t, log) hx⟩
  · intro front i back hlog hi
    have hmem : i ∈ invocations join (writeEntry openSource w) root "/" s := by
      rw [hlog]; simp
    obtain ⟨st, hst⟩ := invocations_err join (writeEntry openSource w) root "/" s i hmem
    rw [writeEntry_unknown openSource w i.path i.entry st hi] at hst
    simp only at hst
    obtain ⟨_, hok, hfail⟩ := invocations_spec join (writeEntry openSource w) root "/" s
    have hops := writerOps_eq join openSource w root s
    cases hr : (root.walk join (writeEntry openSource w) "/" s).2 with
    | none =>
      have := (hok hr).2 i hmem
      rw [hst] at this
      exact absurd this (by simp)
    | some err =>
      obtain ⟨init, last, hl, hlast, hinit⟩ := hfail err hr
      have hnot : i ∉ init := fun hm => by
        have := hinit i hm
        rw [hst] at this
        exact absurd this (by simp)
      rw [hl] at hlog
      obtain ⟨hback, hil⟩ := last_of_append_eq init front back last i hlog hnot
      subst hback
      subst hil
      have hfront : init = front := List.append_cancel_right hlog
      subst hfront
      rw [hst] at hlast
      refine ⟨rfl, ?_, ?_⟩
      · show (root.walk join (writeEntry openSource w) "/" s).2 = _
        rw [hr, hlast]
      · rw [hops, hl, List.filter_append]
        have h1 : init.filter (fun j => calledWriter j.err) = init := by
          rw [List.filter_eq_self]
          intro j hj
          rw [hinit j hj]
          rfl
        have h2 : [i].filter (fun j => calledWriter j.err) = [] := by
          simp [hst, calledWriter]
        rw [h1, h2, List.append_nil]

/-- Witness of C12 as amended: the tree of the tests, whose entry "init" has type
99; serialization fails with the error for 99 and the writer is not called. -/
theorem C12_unknown_file_type_witness :
    (writeTo slashJoin (fun _ => none) (mockWriter none)
      (dirEntry.AddEntry "init" (Entry.mk ⟨99⟩ "" none)).receiver ()).2 =
        some (WriteError.unknownFileType 99) ∧
    (WriteError.unknownFileType 99 : WriteError String).message id = "unknown file type 99" ∧
    writerOps slashJoin (fun _ => none) (mockWriter none)
      (dirEntry.AddEntry "init" (Entry.mk ⟨99⟩ "" none)).receiver () = [] ∧
    (∃ front i err,
      invocations slashJoin (writeEntry (fun _ => none) (mockWriter (some "assert.AnError")))
        (dirEntry.AddEntry "init" (Entry.mk ⟨99⟩ "" none)).receiver "/" () = front ++ [i] ∧
      (∀ j ∈ front, j.err = none) ∧ i.err = some err ∧
      (writeTo slashJoin (fun _ => none) (mockWriter (some "assert.AnError"))
        (dirEntry.AddEntry "init" (Entry.mk ⟨99⟩ "" none)).receiver ()).2 = some err) :=
  ⟨((C12_unknown_file_type slashJoin (fun _ => none) (mockWriter none)
      (dirEntry.AddEntry "init" (Entry.mk ⟨99⟩ "" none)).receiver ()).2.2.1 []
      ⟨"//init", Entry.mk ⟨99⟩ "" none, some (WriteError.unknownFileType 99)⟩ [] rfl
      ⟨by decide, by decide, by decide⟩).2.1,
    by decide, rfl,
    (C12_unknown_file_type slashJoin (fun _ => none) (mockWriter (some "assert.AnError"))
      (dirEntry.AddEntry "init" (Entry.mk ⟨99⟩ "" none)).receiver ()).2.2.2.1 ["init"]
      (Entry.mk ⟨99⟩ "" none) rfl rfl ⟨by decide, by decide, by decide⟩⟩

/-- Counterexample to C12: a tree reaches an entry of type 99, and serialization
fails with another error than the one for 99. In a directory that holds entries
of types 98 and 99 the first one visited decides the error, whichever the order
of the bindings; behind a link on which the writer fails, the error is the
writer's. -/
theorem C12_counterexample :
    (twoUnknown.wf = true ∧ twoUnknown.reach ["z"] = some (Entry.mk ⟨99⟩ "" none) ∧
      (writeTo slashJoin (fun _ => none) (mockWriter none) twoUnknown ()).2 =
        some (WriteError.unknownFileType 98) ∧
      (WriteError.unknownFileType 98 : WriteError String).message id =
        "unknown file type 98" ∧
      ¬ ("unknown file type 99".data <:+: "unknown file type 98".data)) ∧
    (twoUnknownSwapped.wf = true ∧
      twoUnknownSwapped.reach ["a"] = some (Entry.mk ⟨98⟩ "" none) ∧
      (writeTo slashJoin (fun _ => none) (mockWriter none) twoUnknownSwapped ()).2 =
        some (WriteError.unknownFileType 99) ∧
      ¬ ("unknown file type 98".data <:+: "unknown file type 99".data)) ∧
    (linkThenUnknown.wf = true ∧
      linkThenUnknown.reach ["z"] = some (Entry.mk ⟨99⟩ "" none) ∧
      (writeTo slashJoin (fun _ => none) (mockWriter (some "boom")) linkThenUnknown ()).2 =
        some (WriteError.writerFailure "boom") ∧
      (WriteError.writerFailure "boom" : WriteError String).message id = "boom" ∧
      ¬ ("unknown file type".data <:+: "boom".data)) := by
  refine ⟨⟨rfl, rfl, rfl, by decide, by decide⟩, ⟨rfl, rfl, rfl, by decide⟩,
    ⟨rfl, rfl, rfl, by decide, by decide⟩⟩

/-! ## The order of the bindings -/

theorem permRel_nil {α β : Type} (R : α → β → Prop) : PermRel R [] [] :=
  ⟨[], List.Perm.refl _, List.Forall₂.nil⟩

theorem permRel_cons {α β : Type} {R : α → β → Prop} {a : α} {b : β} {A : List α}
    {B : List β} (hab : R a b) (h : PermRel R A B) : PermRel R (a :: A) (b :: B) := by
  obtain ⟨B1, hp, hf⟩ := h
  exact ⟨b :: B1, List.Perm.cons b hp, List.Forall₂.cons hab hf⟩

theorem forall₂_append {α β : Type} {R : α → β → Prop} (A : List α) :
    ∀ (B : List β) (C : List α) (D : List β), List.Forall₂ R A B → List.Forall₂ R C D →
      List.Forall₂ R (A ++ C) (B ++ D) := by
  induction A with
  | nil =>
    intro B C D hab hcd
    cases hab
    exact hcd
  | cons a A ih =>
    intro B C D hab hcd
    cases hab with
    | cons h1 h2 => exact List.Forall₂.cons h1 (ih _ C D h2 hcd)

theorem permRel_append {α β : Type} {R : α → β → Prop} {A C : List α} {B D : List β}
    (h1 : PermRel R A B) (h2 : PermRel R C D) : PermRel R (A ++ C) (B ++ D) := by
  obtain ⟨B1, hp1, hf1⟩ := h1
  obtain ⟨D1, hp2, hf2⟩ := h2
  exact ⟨B1 ++ D1, List.Perm.append hp1 hp2, forall₂_append A B1 C D1 hf1 hf2⟩

theorem permRel_perm {α β : Type} {R : α → β → Prop} {A : List α} {B B2 : List β}
    (h : PermRel R A B) (hp : List.Perm B B2) : PermRel R A B2 := by
  obtain ⟨B1, hp1, hf1⟩ := h
  exact ⟨B1, hp1.trans hp, hf1⟩

theorem permRel_map {α β γ δ : Type} {R : α → β → Prop} {S : γ → δ → Prop} (f : α → γ)
    (g : β → δ) (hfg : ∀ a b, R a b → S (f a) (g b)) {A : List α} {B : List β}
    (h : PermRel R A B) : PermRel S (A.map f) (B.map g) := by
  obtain ⟨B1, hp1, hf1⟩ := h
  refine ⟨B1.map g, hp1.map g, ?_⟩
  rw [List.forall₂_map_left_iff, List.forall₂_map_right_iff]
  exact hf1.imp hfg

theorem Entry.visitsRange_append (a b : Bindings) :
    Entry.visitsRange (a ++ b) = Entry.visitsRange a ++ Entry.visitsRange b := by
  induction a with
  | nil => simp [Entry.visitsRange]
  | cons kv a ih =>
    obtain ⟨n, x⟩ := kv
    rw [List.cons_append, Entry.visitsRange_cons, Entry.visitsRange_cons, ih]
    simp

theorem Entry.sameUpToOrder_type (e e2 : Entry) (h : e.sameUpToOrder e2) :
    e2.type = e.type ∧ e2.relatedPath = e.relatedPath := by
  rcases e with ⟨t, p, _ | l⟩
  · simp only [Entry.sameUpToOrder] at h
    rw [h]; exact ⟨rfl, rfl⟩
  · simp only [Entry.sameUpToOrder] at h
    obtain ⟨l2, h2, _⟩ := h
    rw [h2]; exact ⟨rfl, rfl⟩

/-- The visits of one entry under two orders of the bindings are the same up to
a permutation. -/
theorem Entry.visits_sameUpToOrder :
    ∀ e : Entry, ∀ e2, e.sameUpToOrder e2 →
      PermRel (fun v v2 => v.1 = v2.1 ∧ Entry.sameUpToOrder v.2 v2.2) e.visits e2.visits := by
  refine Entry.induction_entry
    (fun e => ∀ e2, e.sameUpToOrder e2 →
      PermRel (fun v v2 => v.1 = v2.1 ∧ Entry.sameUpToOrder v.2 v2.2) e.visits e2.visits)
    (fun l => ∀ l2, Entry.reordering l l2 →
      PermRel (fun v v2 => v.1 = v2.1 ∧ Entry.sameUpToOrder v.2 v2.2)
        (Entry.visitsRange l) (Entry.visitsRange l2)) ?_ ?_ ?_ ?_
  · intro t p e2 h
    simp only [Entry.sameUpToOrder] at h
    rw [h]
    simp only [Entry.visits]
    exact permRel_nil _
  · intro t p l ih e2 h
    simp only [Entry.sameUpToOrder] at h
    obtain ⟨l2, h2, hre⟩ := h
    rw [h2]
    simp only [Entry.visits]
    exact ih l2 hre
  · intro l2 h
    simp only [Entry.reordering] at h
    rw [h]
    simp only [Entry.visitsRange]
    exact permRel_nil _
  · intro n x rest ihx ihrest l2 h
    simp only [Entry.reordering] at h
    obtain ⟨x2, a, b, hl2, hsame, hre⟩ := h
    rw [hl2, Entry.visitsRange_append, Entry.visitsRange_cons, Entry.visitsRange_cons]
    have hrest := ihrest (a ++ b) hre
    rw [Entry.visitsRange_append] at hrest
    have hdir : x2.IsDir = x.IsDir := by
      simp only [Entry.IsDir, (Entry.sameUpToOrder_type x x2 hsame).1]
    have hsub : PermRel (fun v v2 => v.1 = v2.1 ∧ Entry.sameUpToOrder v.2 v2.2)
        (if x.IsDir then x.visits.map (fun v => (n :: v.1, v.2)) else [])
        (if x2.IsDir then x2.visits.map (fun v => (n :: v.1, v.2)) else []) := by
      rw [hdir]
      by_cases hd : x.IsDir = true
      · simp only [hd, if_true]
        refine permRel_map _ _ ?_ (ihx x2 hsame)
        rintro v v2 ⟨h1, h2⟩
        exact ⟨by simp [h1], h2⟩
      · simp only [hd]
        exact permRel_nil _
    have hall := permRel_cons (R := fun v v2 => v.1 = v2.1 ∧ Entry.sameUpToOrder v.2 v2.2)
      (a := ([n], x)) (b := ([n], x2)) ⟨rfl, hsame⟩ (permRel_append hsub hrest)
    refine permRel_perm hall ?_
    have : ∀ (X A B : List (List String × Entry)), List.Perm (X ++ (A ++ B)) (A ++ (X ++ B)) := by
      intro X A B
      rw [← List.append_assoc, ← List.append_assoc]
      exact List.Perm.append_right B List.perm_append_comm
    exact this (([n], x2) :: (if x2.IsDir then x2.visits.map (fun v => (n :: v.1, v.2)) else []))
      (Entry.visitsRange a) (Entry.visitsRange b)

/-- C20: when the callback never fails, the traversals of one tree under two
orders of the bindings of its directories both return no error, and the calls of
the second are a permutation of calls that match the calls of the first one by
one: same path, and the same entry up to the order of the bindings inside it. -/
theorem C20_walk_order_independent {σ ε : Type} (join : String → String → String)
    (fn : WalkFunc σ ε) (hfn : ∀ p x s, (fn p x s).2 = none) (e e2 : Entry)
    (horder : e.sameUpToOrder e2) (base : String) (s s2 : σ) :
    (e.walk join fn base s).2 = none ∧ (e2.walk join fn base s2).2 = none ∧
    ∃ calls, List.Perm calls (invocations join fn e2 base s2) ∧
      List.Forall₂ (fun i j => i.path = j.path ∧ Entry.sameUpToOrder i.entry j.entry ∧
          i.err = j.err)
        (invocations join fn e base s) calls := by
  have hinv : ∀ (x : Entry) (t : σ), invocations join fn x base t =
      x.visits.map (fun v => (⟨pathOf join base v.1, v.2, none⟩ : Invocation ε)) := by
    intro x t
    unfold invocations
    rw [Entry.walk_eq_callEach, (callEach_record_of_ok fn hfn _ t []).1]
    simp [Function.comp_def]
  have hres : ∀ (x : Entry) (t : σ), (x.walk join fn base t).2 = none := by
    intro x t
    rw [Entry.walk_eq_callEach]
    exact (callEach_record_of_ok fn hfn _ t []).2
  refine ⟨hres e s, hres e2 s2, ?_⟩
  rw [hinv e s, hinv e2 s2]
  refine permRel_map _ _ ?_ (Entry.visits_sameUpToOrder e e2 horder)
  rintro v v2 ⟨h1, h2⟩
  exact ⟨by simp [h1], h2, rfl⟩

/-- Witness of C20: a directory with two files and the same directory with the
two bindings swapped. -/
theorem C20_walk_order_independent_witness :
    ((∀ p x s, (countCalls p x s).2 = none) ∧ twoFiles.sameUpToOrder twoFilesSwapped) ∧
    ((twoFiles.walk slashJoin countCalls "" 0).2 = none ∧
      (twoFilesSwapped.walk slashJoin countCalls "" 0).2 = none ∧
      ∃ calls, List.Perm calls (invocations slashJoin countCalls twoFilesSwapped "" 0) ∧
        List.Forall₂ (fun i j => i.path = j.path ∧ Entry.sameUpToOrder i.entry j.entry ∧
            i.err = j.err)
          (invocations slashJoin countCalls twoFiles "" 0) calls) ∧
    ((invocations slashJoin countCalls twoFiles "" 0).map (fun i => i.path) = ["/a", "/b"] ∧
      (invocations slashJoin countCalls twoFilesSwapped "" 0).map (fun i => i.path) =
        ["/b", "/a"]) :=
  have horder : twoFiles.sameUpToOrder twoFilesSwapped := by
    simp only [twoFiles, twoFilesSwapped, Entry.sameUpToOrder, Entry.reordering]
    refine ⟨_, rfl, Entry.mk TypeRegular "x" none, [("b", Entry.mk TypeRegular "y" none)], [],
      rfl, rfl, Entry.mk TypeRegular "y" none, [], [], rfl, rfl, rfl⟩
  ⟨⟨fun _ _ _ => rfl, horder⟩,
    C20_walk_order_independent slashJoin countCalls (fun _ _ _ => rfl) twoFiles
      twoFilesSwapped horder "" 0 0,
    ⟨rfl, rfl⟩⟩

/-! ## The two embeddings of `AddEntry` -/

/-- The embedding on pointers and the embedding on trees decide alike: for an
entry in memory and a tree with the same `Type` and the same names bound, the two
`AddEntry` return the same error, and both return an entry or both return none. -/
theorem Heap.AddEntry_err_eq (h : Heap) (e : Nat) (node : Node) (ev : Entry)
    (name : String) (x : Nat) (xv : Entry) (hn : h[e]? = some node)
    (htype : ev.type = node.type)
    (hkeys : (ev.child name).isSome = (Heap.child node name).isSome) :
    ∃ r, Heap.AddEntry h e name x = some r ∧ r.err = (ev.AddEntry name xv).err ∧
      r.entry.isSome = (ev.AddEntry name xv).entry.isSome := by
  rw [Heap.AddEntry_eq h e name x node hn]
  by_cases ht : node.type = TypeDirectory
  · have hd : ev.IsDir = true := by simp [Entry.IsDir, htype, ht]
    rw [if_neg (not_not.2 ht)]
    cases hc : Heap.child node name with
    | some ee =>
      rw [hc] at hkeys
      obtain ⟨ee2, hee2⟩ := Option.isSome_iff_exists.1 hkeys
      exact ⟨_, rfl, by rw [Entry.AddEntry_of_child ev name xv ee2 hd hee2],
        by rw [Entry.AddEntry_of_child ev name xv ee2 hd hee2]; rfl⟩
    | none =>
      rw [hc] at hkeys
      have hnone : ev.child name = none := by
        cases hv : ev.child name with
        | none => rfl
        | some y => rw [hv] at hkeys; simp at hkeys
      exact ⟨_, rfl, by rw [Entry.AddEntry_of_new ev name xv hd hnone],
        by rw [Entry.AddEntry_of_new ev name xv hd hnone]; rfl⟩
  · have hd : ev.IsDir = false := by simp [Entry.IsDir, htype, ht]
    rw [if_pos ht]
    exact ⟨_, rfl, by rw [Entry.AddEntry_of_not_dir ev name xv hd],
      by rw [Entry.AddEntry_of_not_dir ev name xv hd]; rfl⟩

end Files
